import Mathlib

/-!
The program `ipfinder` (reverse-IP domain discovery).

A shallow embedding of the Go sources `internal/common/common.go`,
`internal/source/source.go`, `internal/scanner/writer.go` and the input loader of
`cmd/ipfinder/main.go`, followed by theorems about them.

Conventions of the embedding.

* A Go `string` is a `List Char` (its sequence of runes).  Byte lengths, where the
  code depends on them, are UTF-8 lengths.
* Functions of the Go standard library whose result is fixed by a short
  description (`strings.TrimSpace`, `strings.Split`, ...) are written out.  Those that
  are large tables or engines (`unicode.ToLower` outside ASCII, `regexp`, `encoding/json`,
  `net.ParseIP`, URL parsing) are fields of `Stdlib`, so every theorem holds for any
  behaviour of them.
* `error` results are `Except`/`Option`; machine integers are `Nat` with explicit
  reduction modulo `2 ^ 64`.
-/

namespace IPFinder

/-- The parts of the Go standard library that the program calls and that are taken
as given. -/
structure Stdlib where
  /-- Value of `unicode.ToLower` on runes from U+0080 upwards. -/
  unicodeToLower : Char → Char
  /-- Result of `regexp.MustCompile(pattern).FindAllStringSubmatch(s, -1)`: one list
  per match, holding the match and its groups. -/
  FindAllStringSubmatch : String → List Char → List (List (List Char))
  /-- Result of `json.Unmarshal(body, &results)` for `results []map[string]interface{}`,
  each element reduced to `item["domain"].(string)`: `none` when decoding fails; per
  element `none` when the key is absent or not a string. -/
  jsonDomains : List Char → Option (List (Option (List Char)))
  /-- Whether `net.ParseIP(s)` is non-nil. -/
  ParseIP : List Char → Bool
  /-- Whether `http.NewRequestWithContext(ctx, "GET", url, nil)` returns no error. -/
  validURL : List Char → Bool

/-! ## Package `strings` and `unicode` -/

namespace strings

/-- Go `strings.HasPrefix`. -/
def HasPrefix (s pre : List Char) : Bool := pre.isPrefixOf s

/-- Go `strings.TrimPrefix`. -/
def TrimPrefix (s pre : List Char) : List Char :=
  if HasPrefix s pre then s.drop pre.length else s

/-- Go `strings.Contains`. -/
def Contains : List Char → List Char → Bool
  | [], sub => sub.isPrefixOf []
  | c :: t, sub => sub.isPrefixOf (c :: t) || Contains t sub

/-- Go `strings.Split(s, sep)` for a separator of one character; the result is never
empty (`Split("", sep)` is `[""]`). -/
def Split (s : List Char) (sep : Char) : List (List Char) :=
  match s with
  | [] => [[]]
  | c :: t =>
    if c = sep then [] :: Split t sep
    else
      match Split t sep with
      | [] => [[c]]
      | h :: r => (c :: h) :: r

/-- Go `unicode.IsSpace`. -/
def IsSpace (c : Char) : Bool :=
  let n := c.toNat
  (9 ≤ n && n ≤ 13) || n = 32 || n = 0x85 || n = 0xA0 || n = 0x1680 ||
  (0x2000 ≤ n && n ≤ 0x200A) || n = 0x2028 || n = 0x2029 || n = 0x202F ||
  n = 0x205F || n = 0x3000

/-- Go `strings.TrimSpace`. -/
def TrimSpace (s : List Char) : List Char :=
  (s.dropWhile IsSpace).rdropWhile IsSpace

/-- Go `unicode.ToLower`: ASCII capitals move down to the small letters, other ASCII
runes are fixed, the rest is `Stdlib.unicodeToLower`. -/
def toLowerRune (L : Stdlib) (c : Char) : Char :=
  if c.toNat < 128 then
    if 65 ≤ c.toNat ∧ c.toNat ≤ 90 then Char.ofNat (c.toNat + 32) else c
  else L.unicodeToLower c

/-- Go `strings.ToLower`. -/
def ToLower (L : Stdlib) (s : List Char) : List Char := s.map (toLowerRune L)

/-- Go `strings.Index`: position of the first occurrence of `sub`, if any. -/
def Index : List Char → List Char → Option Nat
  | [], sub => if sub.isPrefixOf [] then some 0 else none
  | c :: t, sub =>
    if sub.isPrefixOf (c :: t) then some 0 else (Index t sub).map (fun i => i + 1)

/-- Go `strings.SplitN(s, sep, 2)` for a non-empty separator: the text before and after
the first occurrence of `sep`, or `s` alone when `sep` does not occur. -/
def SplitN2 (s sep : List Char) : List (List Char) :=
  match Index s sep with
  | none => [s]
  | some i => [s.take i, s.drop (i + sep.length)]


end strings

/-! ## Package `common` -/

namespace common

/-- `reProto.ReplaceAllString(raw, "")` for the pattern `^https?://`: the pattern is
anchored at the start of the text, so at most the leading scheme is removed. -/
def reProtoStrip (raw : List Char) : List Char :=
  if strings.HasPrefix raw "https://".toList then raw.drop 8
  else if strings.HasPrefix raw "http://".toList then raw.drop 7
  else raw

/-- Complement of the class of `reBad`, the pattern `[^a-z0-9.-]`. -/
def allowedChar (c : Char) : Bool :=
  (97 ≤ c.toNat && c.toNat ≤ 122) || (48 ≤ c.toNat && c.toNat ≤ 57) ||
  c = '.' || c = '-'

/-- `reBad.ReplaceAllString(raw, "")`: every character matching `reBad` is deleted. -/
def reBadStrip (raw : List Char) : List Char := raw.filter allowedChar

/-- Go `common.NormalizeDomain`. -/
def NormalizeDomain (L : Stdlib) (raw : List Char) : List Char :=
  if raw = [] then []
  else
    let raw := reProtoStrip raw
    let parts := strings.Split raw '/'
    let raw := parts.headD []
    let parts := strings.Split raw ':'
    let raw := parts.headD []
    let raw := strings.TrimPrefix raw "www.".toList
    let raw := strings.ToLower L (strings.TrimSpace raw)
    if !strings.Contains raw ".".toList then []
    else reBadStrip raw

/-- Go `common.UniqueStrings`: `seen` is the key set of the map, `result` the slice. -/
def UniqueStrings (slice : List (List Char)) : List (List Char) :=
  (slice.foldl
    (fun (st : List (List Char) × List (List Char)) s =>
      if !st.1.contains s then (s :: st.1, st.2 ++ [s]) else st)
    ([], [])).2

/-- Go `common.IsValidIP`. -/
def IsValidIP (L : Stdlib) (ip : List Char) : Bool :=
  if ip = [] then false else L.ParseIP ip

end common

/-- A recogniser of dotted-decimal IPv4 text (four runs of one to three digits, each at
most 255), used where a concrete `ParseIP` is needed to evaluate an example. -/
def dottedQuad (s : List Char) : Bool :=
  let parts := strings.Split s '.'
  parts.length = 4 &&
  parts.all (fun p => 1 ≤ p.length && p.length ≤ 3 && p.all Char.isDigit &&
    p.foldl (fun n c => 10 * n + (c.toNat - 48)) 0 ≤ 255)

/-- A concrete standard library for evaluating examples whose text is ASCII: runes
outside ASCII are left alone by `ToLower`, no pattern ever matches, JSON never decodes,
IP addresses are dotted quads and every URL is accepted. -/
def Stdlib.ascii : Stdlib where
  unicodeToLower := id
  FindAllStringSubmatch := fun _ _ => []
  jsonDomains := fun _ => none
  ParseIP := dottedQuad
  validURL := fun _ => true

/-- What `NormalizeDomain` returns when it does not reject. -/
def IsHostname (d : List Char) : Prop :=
  d ≠ [] ∧ '.' ∈ d ∧
    ∀ c ∈ d, ('a' ≤ c ∧ c ≤ 'z') ∨ ('0' ≤ c ∧ c ≤ '9') ∨ c = '.' ∨ c = '-'

/-- The strings of a list, each kept at its first occurrence only. -/
def firstOccurrences : List (List Char) → List (List Char)
  | [] => []
  | x :: xs => x :: (firstOccurrences xs).filter (fun y => decide (y ≠ x))

/-- The list `res` enumerates, without repetition, exactly the strings of `xs`, in the
order in which they first occur in `xs`. -/
def IsFirstOccurrenceList (res xs : List (List Char)) : Prop :=
  res.Nodup ∧ (∀ a, a ∈ res ↔ a ∈ xs) ∧
    res.Pairwise (fun a b => xs.indexOf a < xs.indexOf b)

/-! ## Bytes of a string -/

/-- UTF-8 encoding of one rune. -/
def utf8 (c : Char) : List Nat :=
  let v := c.toNat
  if v < 0x80 then [v]
  else if v < 0x800 then [0xC0 + v / 64, 0x80 + v % 64]
  else if v < 0x10000 then [0xE0 + v / 4096, 0x80 + v / 64 % 64, 0x80 + v % 64]
  else [0xF0 + v / 262144, 0x80 + v / 4096 % 64, 0x80 + v / 64 % 64, 0x80 + v % 64]

/-- The bytes of a Go string. -/
def bytes (s : List Char) : List Nat := (s.map utf8).flatten

/-! ## Package `bufio`: line scanning -/

namespace bufio

/-- The helper `dropCR` of `bufio.ScanLines`. -/
def dropCR (data : List Char) : List Char :=
  if data.getLast? = some '\r' then data.dropLast else data

/-- Go `bufio.MaxScanTokenSize`: the size to which the buffer of a `bufio.Scanner` may
grow. -/
def MaxScanTokenSize : Nat := 64 * 1024

/-- The lines of a text as `bufio.ScanLines` cuts them: the pieces between line feeds,
without a final empty piece. -/
def rawLines (s : List Char) : List (List Char) :=
  let parts := strings.Split s '\n'
  if parts.getLast? = some [] then parts.dropLast else parts

/-- Whether a line can be delivered by a `bufio.Scanner` with the default buffer: the line
and its line feed must fit the buffer, that is, the line has fewer than `MaxScanTokenSize`
bytes.  (A last line without line feed must leave one byte free for the end of the input to
be seen, which gives the same bound.) -/
def fitsBuffer (line : List Char) : Bool := decide ((bytes line).length < MaxScanTokenSize)

/-- The tokens which the loop `for scanner.Scan() { ... scanner.Text() ... }` sees on a
`bufio.Scanner` with the default split function and buffer, reading the text `s`: the
lines of `s` up to the first one that does not fit the buffer, where `Scan` reports
`ErrTooLong` and returns false for good; each line without one trailing carriage
return. -/
def scanLines (s : List Char) : List (List Char) :=
  ((rawLines s).takeWhile fitsBuffer).map dropCR

end bufio

/-! ## `cmd/ipfinder`: loading the IP list from a file -/

namespace main

/-- The lines of an input file that count as targets: a trimmed line is kept when it is
not empty, does not begin with `#` or `//`, and passes `IsValidIP`. -/
def keptLine (L : Stdlib) (ip : List Char) : Bool :=
  decide (ip ≠ []) && !strings.HasPrefix ip "#".toList &&
    !strings.HasPrefix ip "//".toList && common.IsValidIP L ip

/-- The body of the loop `for sc.Scan() { ... }` of `main`, run over the tokens `sc.Text()`
in order.  The state is `ipList` and the list of lines for which a warning is printed. -/
def scanLoop (L : Stdlib) (tokens : List (List Char)) :
    List (List Char) × List (List Char) :=
  tokens.foldl
    (fun (st : List (List Char) × List (List Char)) text =>
      let ip := strings.TrimSpace text
      if ip = [] then st
      else if strings.HasPrefix ip "#".toList || strings.HasPrefix ip "//".toList then st
      else if !common.IsValidIP L ip then (st.1, st.2 ++ [ip])
      else (st.1 ++ [ip], st.2))
    ([], [])

/-- The loop `sc := bufio.NewScanner(f); for sc.Scan() { ... }` of `main` on a file with
the given content; `sc.Err()` is not read afterwards. -/
def readIPList (L : Stdlib) (content : List Char) : List (List Char) × List (List Char) :=
  scanLoop L (bufio.scanLines content)

/-- File mode of `main` after the file is open: `none` is the exit with
"No valid IPs found in file", `some ipList` is the list passed to `scanner.NewScanner`. -/
def loadFile (L : Stdlib) (content : List Char) : Option (List (List Char)) :=
  let ipList := (readIPList L content).1
  if ipList.length = 0 then none else some ipList

end main

/-! ## Package `source` -/

namespace source

/-- The error values a `Query` returns. -/
inductive Err where
  | transport
  | status (code : Int)
  | read
  | decode
  | request
  | cancelled
  deriving DecidableEq, Repr

/-- An `http.Response` as the sources read it: the status code, the bytes `io.ReadAll`
delivers, and whether `io.ReadAll` reports an error after them. -/
structure Response where
  StatusCode : Int
  Body : List Char
  readErr : Bool

/-- The surroundings of one `Query` call. -/
structure Env where
  /-- Result of `client.Do` for the request number `k` (from 0) of the call, sent to the
  given URL; `none` is an error. -/
  Do : Nat → List Char → Option Response
  /-- Whether `ctx.Done()` is closed when it is polled before request number `k`. -/
  done : Nat → Bool

/-- What a `Query` call returns, with the URLs it passed to `client.Do`, in order. -/
structure Result where
  domains : List (List Char)
  err : Option Err
  requests : List (List Char)
  deriving DecidableEq, Repr

/-- The escape character U+001B. -/
def esc : Char := Char.ofNat 27

/-- Length, counted after the escape character, of a match of `\x1b\[[0-9;]*[a-zA-Z]`
that starts at an escape character followed by `t`. -/
def ansiMatchLen (t : List Char) : Option Nat :=
  match t with
  | '[' :: r =>
    let k := (r.takeWhile (fun c => c.isDigit || c = ';')).length
    match r.drop k with
    | l :: _ => if l.isAlpha then some (k + 2) else none
    | [] => none
  | _ => none

/-- Worker of `stripANSI`: `skip` characters of a match are still to be dropped. -/
def stripANSI.go : Nat → List Char → List Char
  | _, [] => []
  | skip + 1, _ :: t => stripANSI.go skip t
  | 0, c :: t =>
    if c = esc then
      match ansiMatchLen t with
      | some n => stripANSI.go n t
      | none => c :: stripANSI.go 0 t
    else c :: stripANSI.go 0 t

/-- `ansiRegex.ReplaceAllString(body, "")`: every (leftmost, non-overlapping) match of
the escape-sequence pattern is deleted. -/
def stripANSI (body : List Char) : List Char := stripANSI.go 0 body

/-- One turn of the `for scanner.Scan()` loop of `parseTHCResponse`; the state is
`(domains, nextPage)`. -/
def parseTHCLine (L : Stdlib) (st : List (List Char) × List Char) (text : List Char) :
    List (List Char) × List Char :=
  let line := strings.TrimSpace text
  let parts := strings.SplitN2 line "Next Page:".toList
  if strings.Contains line "Next Page:".toList && decide (parts.length > 1) then
    (st.1, strings.TrimSpace (parts.getD 1 []))
  else if strings.HasPrefix line ";".toList || strings.HasPrefix line ";;".toList
      || line = [] then st
  else if strings.Contains line ".".toList && !strings.Contains line " ".toList then
    let domain := common.NormalizeDomain L line
    if domain ≠ [] then (st.1 ++ [domain], st.2) else st
  else st

/-- Go `parseTHCResponse`. -/
def parseTHCResponse (L : Stdlib) (body : List Char) : List (List Char) × List Char :=
  let cleaned := stripANSI body
  (bufio.scanLines cleaned).foldl (parseTHCLine L) ([], [])

/-- The `for nextPage != "" && pageCount < 20` loop of `THCOrg.Query`.  `fuel` bounds
the number of turns; `none` means the bound was too small. -/
def THCOrg.loop (L : Stdlib) (E : Env) :
    Nat → List (List Char) → List Char → Nat → List (List Char) → Option Result
  | 0, _, _, _, _ => none
  | fuel + 1, allDomains, nextPage, pageCount, requests =>
    if nextPage ≠ [] ∧ pageCount < 20 then
      if E.done pageCount then
        some ⟨common.UniqueStrings allDomains, some Err.cancelled, requests⟩
      else if !L.validURL nextPage then some ⟨allDomains, some Err.request, requests⟩
      else
        match E.Do pageCount nextPage with
        | none => some ⟨allDomains, some Err.transport, requests ++ [nextPage]⟩
        | some resp =>
          if resp.readErr then some ⟨allDomains, some Err.read, requests ++ [nextPage]⟩
          else
            let parsed := parseTHCResponse L resp.Body
            THCOrg.loop L E fuel (allDomains ++ parsed.1) parsed.2 (pageCount + 1)
              (requests ++ [nextPage])
    else some ⟨common.UniqueStrings allDomains, none, requests⟩

/-- The first URL of `THCOrg.Query`. -/
def THCOrg.baseURL (ip : List Char) : List Char := "https://ip.thc.org/".toList ++ ip

/-- Go `THCOrg.Query`.  The loop is given 21 turns (20 pages and the final test). -/
def THCOrg.Query (L : Stdlib) (E : Env) (ip : List Char) : Option Result :=
  THCOrg.loop L E 21 [] (THCOrg.baseURL ip) 0 []

/-- The common frame of the five single-request sources: build the request (a URL that
`http.NewRequestWithContext` rejects leaves `req` nil, and setting a header on it
panics: `none`), send it, fail on an error of `client.Do` or a status other than 200,
and otherwise hand the response to `extract`, whose domains pass through `UniqueStrings`. -/
def singleQuery (L : Stdlib) (E : Env) (url : List Char)
    (extract : Response → Except Err (List (List Char))) : Option Result :=
  if !L.validURL url then none
  else
    match E.Do 0 url with
    | none => some ⟨[], some Err.transport, [url]⟩
    | some resp =>
      if resp.StatusCode ≠ 200 then some ⟨[], some (Err.status resp.StatusCode), [url]⟩
      else
        match extract resp with
        | Except.error e => some ⟨[], some e, [url]⟩
        | Except.ok domains => some ⟨common.UniqueStrings domains, none, [url]⟩

/-- The loop `for _, m := range matches` of `RapidDNS.Query` and `Chaxunle.Query`: the
first group of each match is normalised and kept unless empty or containing one of
`banned`. -/
def collectMatches (L : Stdlib) (banned : List (List Char)) (found : List (List (List Char))) :
    List (List Char) :=
  found.foldl
    (fun domains m =>
      if m.length > 1 then
        let domain := common.NormalizeDomain L (m.getD 1 [])
        if domain ≠ [] ∧ banned.all (fun b => !strings.Contains domain b) then
          domains ++ [domain]
        else domains
      else domains)
    []

/-- The loop `for _, m := range matches` of `TNTcode.Query` and `NetworksDB.Query`: the
first group of each match is split into lines, and each trimmed line is normalised and
kept unless empty or containing `banned`. -/
def collectLines (L : Stdlib) (banned : List Char) (found : List (List (List Char))) :
    List (List Char) :=
  found.foldl
    (fun domains m =>
      if m.length > 1 then
        (strings.Split (m.getD 1 []) '\n').foldl
          (fun domains line =>
            let domain := common.NormalizeDomain L (strings.TrimSpace line)
            if domain ≠ [] ∧ !strings.Contains domain banned then domains ++ [domain]
            else domains)
          domains
      else domains)
    []

/-- Go `RapidDNS.Query`. -/
def RapidDNS.Query (L : Stdlib) (E : Env) (ip : List Char) : Option Result :=
  singleQuery L E ("https://rapiddns.io/sameip/".toList ++ ip ++ "?full=1#result".toList)
    (fun resp =>
      let html := resp.Body
      let found := L.FindAllStringSubmatch
        "<td[^>]*>\\s*([a-zA-Z0-9.-]+\\.[a-zA-Z]\x7b2,\x7d)\\s*</td>" html
      Except.ok (collectMatches L ["rapiddns".toList] found))

/-- Go `WebScan.Query`. -/
def WebScan.Query (L : Stdlib) (E : Env) (ip : List Char) : Option Result :=
  singleQuery L E ("https://api.webscan.cc/?action=query&ip=".toList ++ ip)
    (fun resp =>
      if resp.readErr then Except.error Err.read
      else
        match L.jsonDomains resp.Body with
        | none => Except.error Err.decode
        | some results =>
          Except.ok (results.foldl
            (fun domains item =>
              match item with
              | some domain =>
                let domain := common.NormalizeDomain L domain
                if domain ≠ [] then domains ++ [domain] else domains
              | none => domains)
            []))

/-- Go `TNTcode.Query`. -/
def TNTcode.Query (L : Stdlib) (E : Env) (ip : List Char) : Option Result :=
  singleQuery L E ("https://domains.tntcode.com/ip/".toList ++ ip)
    (fun resp =>
      let html := resp.Body
      let found := L.FindAllStringSubmatch "<textarea[^>]*>([\\s\\S]*?)</textarea>" html
      Except.ok (collectLines L "tntcode".toList found))

/-- Go `NetworksDB.Query`. -/
def NetworksDB.Query (L : Stdlib) (E : Env) (ip : List Char) : Option Result :=
  singleQuery L E ("https://networksdb.io/domains-on-ip/".toList ++ ip)
    (fun resp =>
      let html := resp.Body
      let found := L.FindAllStringSubmatch
        "<pre[^>]*class=\"[^\"]*threecols[^\"]*\"[^>]*>([\\s\\S]*?)</pre>" html
      Except.ok (collectLines L "networksdb".toList found))

/-- Go `Chaxunle.Query`. -/
def Chaxunle.Query (L : Stdlib) (E : Env) (ip : List Char) : Option Result :=
  singleQuery L E ("https://www.chaxunle.cn/ip/".toList ++ ip ++ ".html".toList)
    (fun resp =>
      let html := resp.Body
      let found := L.FindAllStringSubmatch
        "([a-zA-Z0-9][a-zA-Z0-9.-]+\\.[a-zA-Z]\x7b2,\x7d)" html
      Except.ok (collectMatches L ["chaxunle".toList, "baidu".toList, "qq.com".toList] found))

/-- The list `urls` is a possible run of page requests of `THCOrg.Query` that starts
with request number `k` at the link `next`: every request goes to the current link,
which is not empty, and a further request follows only an answered page, at the link
which `parseTHCResponse` finds in that page. -/
def THCOrg.followsLinks (L : Stdlib) (E : Env) : Nat → List Char → List (List Char) → Prop
  | _, _, [] => True
  | k, next, u :: rest =>
    u = next ∧ next ≠ [] ∧
      (rest = [] ∨ ∃ resp, E.Do k u = some resp ∧ resp.readErr = false ∧
        THCOrg.followsLinks L E (k + 1) (parseTHCResponse L resp.Body).2 rest)

/-- The list `urls` is a complete run of page requests of `THCOrg.Query` from request
number `k` at the link `next`: it ends without a request only when the link is empty, the
page cap of 20 is reached, the context is done or the URL is rejected, and after an answered
page it goes on in the same way at the link found in that page. -/
def THCOrg.sendsAll (L : Stdlib) (E : Env) : Nat → List Char → List (List Char) → Prop
  | k, next, [] => next = [] ∨ 20 ≤ k ∨ E.done k = true ∨ L.validURL next = false
  | k, _, u :: rest =>
    ∀ resp, E.Do k u = some resp → resp.readErr = false →
      THCOrg.sendsAll L E (k + 1) (parseTHCResponse L resp.Body).2 rest

/-- The six registered sources. -/
inductive Name where
  | rapiddns | webscan | tntcode | networksdb | chaxunle | thcOrg
  deriving DecidableEq, Repr

/-- `Query` of the source with the given name. -/
def Query (L : Stdlib) (E : Env) (n : Name) (ip : List Char) : Option Result :=
  match n with
  | Name.rapiddns => RapidDNS.Query L E ip
  | Name.webscan => WebScan.Query L E ip
  | Name.tntcode => TNTcode.Query L E ip
  | Name.networksdb => NetworksDB.Query L E ip
  | Name.chaxunle => Chaxunle.Query L E ip
  | Name.thcOrg => THCOrg.Query L E ip

end source

/-! ## Packages `os` and `bufio` as the result sink uses them -/

namespace os

/-- An `*os.File` opened for writing: the bytes that reached the file, whether the
handle is closed, and what the next write system calls will do (`none`: the whole
buffer is written; `some k`: an error after `k` bytes; an empty list: no more errors). -/
structure File where
  data : List Nat
  closed : Bool
  faults : List (Option Nat)
  deriving DecidableEq, Repr

/-- Go `(*os.File).Write` and `WriteString`: the new file, the number of bytes written
and whether an error is returned.  A closed handle refuses every write. -/
def File.Write (f : File) (p : List Nat) : File × Nat × Bool :=
  if f.closed then (f, 0, true)
  else
    match f.faults with
    | [] => ({ f with data := f.data ++ p }, p.length, false)
    | none :: rest => ({ f with data := f.data ++ p, faults := rest }, p.length, false)
    | some k :: rest =>
      ({ f with data := f.data ++ p.take k, faults := rest }, min k p.length, true)

/-- The handle is open and none of its coming writes fails. -/
def File.healthy (f : File) : Prop := f.closed = false ∧ ∀ x ∈ f.faults, x = none

/-- Go `(*os.File).Close`. -/
def File.Close (f : File) : File := { f with closed := true }

/-- The part of the file system that `NewOutputWriter` touches: the directories and the
regular files that exist, each a list of path components below the working directory
(`[]`).  Paths are taken without `..` and symbolic links. -/
structure FS where
  dirs : List (List (List Char))
  files : List (List (List Char))
  deriving DecidableEq, Repr

/-- The components of a path: the pieces between slashes, without empty pieces and
without `.`. -/
def components (path : List Char) : List (List Char) :=
  (strings.Split path '/').filter (fun c => c ≠ [] ∧ c ≠ ".".toList)

/-- Go `os.MkdirAll(path, 0755)`: creates the directory and every missing parent, and
does nothing when a regular file is in the way. -/
def MkdirAll (fs : FS) (path : List Char) : FS :=
  let comps := components path
  let chain := (List.range (comps.length + 1)).map (fun k => comps.take k)
  if chain.any (fun d => fs.files.contains d) then fs
  else { fs with dirs := fs.dirs ++ chain.filter (fun d => !fs.dirs.contains d) }

/-- Go `os.Create(name)`: succeeds when the parent directory exists and `name` is not a
directory; the file then exists (and is empty). -/
def Create (fs : FS) (name : List Char) : Option FS :=
  let comps := components name
  if comps ≠ [] ∧ fs.dirs.contains comps.dropLast ∧ !fs.dirs.contains comps then
    some { fs with files := if fs.files.contains comps then fs.files else fs.files ++ [comps] }
  else none

end os

namespace bufio

/-- A `*bufio.Writer` of the default size: the bytes buffered and whether a write error
has been recorded (`b.err != nil`).  The file it writes to is passed alongside. -/
structure Writer where
  buf : List Nat
  err : Bool
  deriving DecidableEq, Repr

/-- The default buffer size of `bufio.NewWriter`. -/
def defaultBufSize : Nat := 4096

/-- Go `(*bufio.Writer).Available`. -/
def Writer.Available (b : Writer) : Nat := defaultBufSize - b.buf.length

/-- Go `(*bufio.Writer).Flush`. -/
def Writer.Flush (b : Writer) (f : os.File) : Writer × os.File × Bool :=
  if b.err then (b, f, true)
  else if b.buf.length = 0 then (b, f, false)
  else
    let r := f.Write b.buf
    if r.2.2 || decide (r.2.1 < b.buf.length) then
      ({ buf := b.buf.drop r.2.1, err := true }, r.1, true)
    else ({ buf := [], err := false }, r.1, false)

/-- The loop `for len(s) > b.Available() && b.err == nil` of
`(*bufio.Writer).WriteString`, for an underlying `*os.File` (which has `WriteString`):
with an empty buffer the text goes to the file directly, otherwise the buffer is filled
and flushed.  The state is the writer, the file and the rest of `s`; `fuel` bounds the
number of turns. -/
def Writer.WriteString.loop : Nat → Writer → os.File → List Nat → Writer × os.File × List Nat
  | 0, b, f, s => (b, f, s)
  | fuel + 1, b, f, s =>
    if s.length > b.Available ∧ b.err = false then
      if b.buf.length = 0 then
        let r := f.Write s
        Writer.WriteString.loop fuel { b with err := r.2.2 } r.1 (s.drop r.2.1)
      else
        let n := min b.Available s.length
        let r := Writer.Flush { b with buf := b.buf ++ s.take n } f
        Writer.WriteString.loop fuel r.1 r.2.1 (s.drop n)
    else (b, f, s)

/-- Go `(*bufio.Writer).WriteString`: the new writer and file, and whether an error is
returned.  Two turns of the loop are always enough (`WriteString_loop_done`). -/
def Writer.WriteString (b : Writer) (f : os.File) (s : List Nat) : Writer × os.File × Bool :=
  let r := Writer.WriteString.loop 2 b f s
  if r.1.err then (r.1, r.2.1, true)
  else ({ r.1 with buf := r.1.buf ++ r.2.2.take r.1.Available }, r.2.1, false)

end bufio

/-! ## Package `scanner`: the result sink -/

namespace scanner

/-- Go `scanner.OutputWriter`.  `seen` holds the keys of the map; `count` is a `uint64`. -/
structure OutputWriter where
  file : os.File
  writer : bufio.Writer
  seen : List (List Char)
  filename : List Char
  count : Nat
  deriving DecidableEq, Repr

/-- The value `NewOutputWriter` builds once the file is created. -/
def OutputWriter.fresh (filename : List Char) (faults : List (Option Nat)) : OutputWriter where
  file := { data := [], closed := false, faults := faults }
  writer := { buf := [], err := false }
  seen := []
  filename := filename
  count := 0

/-- Go `NewOutputWriter`: the file system afterwards and the sink, or `none` for the
error of `os.Create`.  `faults` is the future behaviour of the new file handle. -/
def NewOutputWriter (fs : os.FS) (filename : List Char) (faults : List (Option Nat)) :
    os.FS × Option OutputWriter :=
  let fs := os.MkdirAll fs "results".toList
  match os.Create fs filename with
  | none => (fs, none)
  | some fs => (fs, some (OutputWriter.fresh filename faults))

/-- Go `(*OutputWriter).Write`, inside the critical section: the new sink and whether an
error is returned. -/
def OutputWriter.Write (w : OutputWriter) (domain : List Char) : OutputWriter × Bool :=
  if w.seen.contains domain then (w, false)
  else
    let r := w.writer.WriteString w.file (bytes (domain ++ "\n".toList))
    if r.2.2 then ({ w with writer := r.1, file := r.2.1 }, true)
    else
      ({ w with writer := r.1, file := r.2.1, seen := domain :: w.seen,
                count := (w.count + 1) % 2 ^ 64 }, false)

/-- Go `(*OutputWriter).Close`. -/
def OutputWriter.Close (w : OutputWriter) : OutputWriter :=
  let r := w.writer.Flush w.file
  { w with writer := r.1, file := r.2.1.Close }

/-- Go `(*OutputWriter).Count`: the counter converted to `int` (64 bits, two's
complement). -/
def OutputWriter.Count (w : OutputWriter) : Int :=
  if w.count < 2 ^ 63 then (w.count : Int) else (w.count : Int) - 2 ^ 64

/-- One `Write` call together with the record of the lines written: the string
`domain + "\n"` joins the record when `WriteString` was called for it and returned no
error. -/
def OutputWriter.writeStep (st : OutputWriter × List (List Char)) (domain : List Char) :
    OutputWriter × List (List Char) :=
  let r := st.1.Write domain
  (r.1, if !st.1.seen.contains domain && !r.2 then st.2 ++ [domain ++ "\n".toList] else st.2)

/-- A sequence of `Write` calls in the order in which the mutex admits them: the sink
afterwards and the lines written, in order. -/
def OutputWriter.writeAll (w : OutputWriter) (domains : List (List Char)) :
    OutputWriter × List (List Char) :=
  domains.foldl OutputWriter.writeStep (w, [])

end scanner

/-! ## Lemmas on the string helpers -/

theorem strings.Contains_dot (s : List Char) :
    strings.Contains s ".".toList = true ↔ '.' ∈ s := by
  have h : ".".toList = ['.'] := rfl
  rw [h]
  induction s with
  | nil => simp [strings.Contains, List.isPrefixOf]
  | cons c t ih =>
    simp only [strings.Contains, List.isPrefixOf, Bool.or_eq_true, ih, List.mem_cons,
      Bool.and_eq_true, beq_iff_eq]
    cases t <;> simp [List.isPrefixOf]

theorem strings.Split_ne_nil (s : List Char) (sep : Char) : strings.Split s sep ≠ [] := by
  induction s with
  | nil => simp [strings.Split]
  | cons c t ih =>
    unfold strings.Split
    split
    · simp
    · split <;> simp

theorem strings.Split_head (s : List Char) (sep : Char) :
    (strings.Split s sep).headD [] = s.takeWhile (fun c => c ≠ sep) := by
  induction s with
  | nil => simp [strings.Split]
  | cons c t ih =>
    unfold strings.Split
    by_cases h : c = sep
    · simp [h]
    · simp only [h, if_false]
      cases hs : strings.Split t sep with
      | nil => exact absurd hs (strings.Split_ne_nil t sep)
      | cons a r =>
        rw [hs] at ih
        simp only [List.headD_cons] at ih
        simp [List.takeWhile, h, ih]

theorem strings.Split_head_of_not_mem (s : List Char) (sep : Char) (h : sep ∉ s) :
    (strings.Split s sep).headD [] = s := by
  rw [strings.Split_head]
  rw [List.takeWhile_eq_self_iff]
  intro c hc
  simp only [ne_eq, decide_eq_true_eq]
  rintro rfl
  exact h hc

theorem common.allowedChar_iff (c : Char) :
    common.allowedChar c = true ↔
      (('a' ≤ c ∧ c ≤ 'z') ∨ ('0' ≤ c ∧ c ≤ '9') ∨ c = '.' ∨ c = '-') := by
  simp only [common.allowedChar, Bool.or_eq_true, Bool.and_eq_true, decide_eq_true_eq,
    Char.le_def, or_assoc]
  rfl


theorem common.NormalizeDomain_cases (L : Stdlib) (s : List Char) :
    common.NormalizeDomain L s = [] ∨ IsHostname (common.NormalizeDomain L s) := by
  unfold common.NormalizeDomain
  by_cases h0 : s = []
  · simp [h0]
  · simp only [h0, if_false]
    split
    · exact Or.inl rfl
    · rename_i hc
      right
      simp only [Bool.not_eq_true, Bool.not_eq_false', strings.Contains_dot] at hc
      have hmem : '.' ∈ common.reBadStrip (strings.ToLower L (strings.TrimSpace
          (strings.TrimPrefix ((strings.Split ((strings.Split (common.reProtoStrip s)
            '/').headD []) ':').headD []) "www.".toList))) := by
        unfold common.reBadStrip
        exact List.mem_filter.mpr ⟨hc, by decide⟩
      refine ⟨List.ne_nil_of_mem hmem, hmem, ?_⟩
      intro c hcm
      unfold common.reBadStrip at hcm
      exact (common.allowedChar_iff c).mp (List.mem_filter.mp hcm).2

/-! ### Normalising a string that is already over the host alphabet -/

theorem common.allowedChar_not_space (c : Char) (h : common.allowedChar c = true) :
    strings.IsSpace c = false := by
  simp only [common.allowedChar, Bool.or_eq_true, Bool.and_eq_true, decide_eq_true_eq] at h
  rcases h with ((h | h) | h) | h
  · simp only [strings.IsSpace, Bool.or_eq_false_iff, Bool.and_eq_false_iff,
      decide_eq_false_iff_not]
    omega
  · simp only [strings.IsSpace, Bool.or_eq_false_iff, Bool.and_eq_false_iff,
      decide_eq_false_iff_not]
    omega
  · subst h; decide
  · subst h; decide

theorem common.allowedChar_toLower (L : Stdlib) (c : Char) (h : common.allowedChar c = true) :
    strings.toLowerRune L c = c := by
  simp only [common.allowedChar, Bool.or_eq_true, Bool.and_eq_true, decide_eq_true_eq] at h
  rcases h with ((h | h) | h) | h
  · have h1 : c.toNat < 128 := by omega
    have h2 : ¬ (65 ≤ c.toNat ∧ c.toNat ≤ 90) := by omega
    simp [strings.toLowerRune, h1, h2]
  · have h1 : c.toNat < 128 := by omega
    have h2 : ¬ (65 ≤ c.toNat ∧ c.toNat ≤ 90) := by omega
    simp [strings.toLowerRune, h1, h2]
  · subst h
    have h1 : '.'.toNat < 128 := by decide
    have h2 : ¬ (65 ≤ '.'.toNat ∧ '.'.toNat ≤ 90) := by decide
    simp [strings.toLowerRune, h1, h2]
  · subst h
    have h1 : '-'.toNat < 128 := by decide
    have h2 : ¬ (65 ≤ '-'.toNat ∧ '-'.toNat ≤ 90) := by decide
    simp [strings.toLowerRune, h1, h2]

theorem strings.TrimSpace_of_no_space (d : List Char) (h : ∀ c ∈ d, strings.IsSpace c = false) :
    strings.TrimSpace d = d := by
  have h1 : d.dropWhile strings.IsSpace = d := by
    cases d with
    | nil => rfl
    | cons a t => simp [List.dropWhile, h a (List.mem_cons_self a t)]
  unfold strings.TrimSpace
  rw [h1, List.rdropWhile_eq_self_iff]
  intro hne
  simp [h _ (List.getLast_mem hne)]

theorem strings.HasPrefix_mem (s pre : List Char) (h : strings.HasPrefix s pre = true) :
    ∀ c ∈ pre, c ∈ s := by
  intro c hc
  unfold strings.HasPrefix at h
  exact (List.isPrefixOf_iff_prefix.mp h).subset hc

theorem common.reProtoStrip_of_allowed (d : List Char)
    (h : ∀ c ∈ d, common.allowedChar c = true) : common.reProtoStrip d = d := by
  have hcolon : ':' ∉ d := fun hm => absurd (h _ hm) (by decide)
  unfold common.reProtoStrip
  split
  · rename_i hp
    exact absurd (strings.HasPrefix_mem d _ hp ':' (by decide)) hcolon
  · split
    · rename_i hp
      exact absurd (strings.HasPrefix_mem d _ hp ':' (by decide)) hcolon
    · rfl

theorem strings.TrimPrefix_subset (d pre : List Char) : ∀ c ∈ strings.TrimPrefix d pre, c ∈ d := by
  intro c hc
  unfold strings.TrimPrefix at hc
  split at hc
  · exact List.mem_of_mem_drop hc
  · exact hc

/-- The second pass of the normaliser over a string of the host alphabet: only the
removal of a leading `www.` and the test for a dot can still act. -/
theorem common.NormalizeDomain_of_allowed (L : Stdlib) (d : List Char) (hne : d ≠ [])
    (h : ∀ c ∈ d, common.allowedChar c = true) :
    common.NormalizeDomain L d =
      if strings.Contains (strings.TrimPrefix d "www.".toList) ".".toList
      then strings.TrimPrefix d "www.".toList else [] := by
  have hslash : '/' ∉ d := fun hm => absurd (h _ hm) (by decide)
  have hcolon : ':' ∉ d := fun hm => absurd (h _ hm) (by decide)
  have hr : ∀ c ∈ strings.TrimPrefix d "www.".toList, common.allowedChar c = true :=
    fun c hc => h c (strings.TrimPrefix_subset d _ c hc)
  have hts : strings.TrimSpace (strings.TrimPrefix d "www.".toList)
      = strings.TrimPrefix d "www.".toList :=
    strings.TrimSpace_of_no_space _ (fun c hc => common.allowedChar_not_space c (hr c hc))
  have hlow : strings.ToLower L (strings.TrimPrefix d "www.".toList)
      = strings.TrimPrefix d "www.".toList := by
    unfold strings.ToLower
    conv_rhs => rw [← List.map_id (strings.TrimPrefix d "www.".toList)]
    exact List.map_congr_left (fun c hc => common.allowedChar_toLower L c (hr c hc))
  have hbad : common.reBadStrip (strings.TrimPrefix d "www.".toList)
      = strings.TrimPrefix d "www.".toList := by
    unfold common.reBadStrip
    exact List.filter_eq_self.mpr hr
  unfold common.NormalizeDomain
  simp only [hne, if_false, common.reProtoStrip_of_allowed d h,
    strings.Split_head_of_not_mem d '/' hslash, strings.Split_head_of_not_mem d ':' hcolon,
    hts, hlow, hbad]
  cases strings.Contains (strings.TrimPrefix d "www.".toList) ".".toList <;> simp

theorem common.NormalizeDomain_nil (L : Stdlib) : common.NormalizeDomain L [] = [] := by
  simp [common.NormalizeDomain]

theorem IsHostname.allowed {d : List Char} (h : IsHostname d) :
    ∀ c ∈ d, common.allowedChar c = true :=
  fun c hc => (common.allowedChar_iff c).mpr (h.2.2 c hc)

/-! ## First occurrences -/

theorem mem_firstOccurrences (xs : List (List Char)) (a : List Char) :
    a ∈ firstOccurrences xs ↔ a ∈ xs := by
  induction xs with
  | nil => simp [firstOccurrences]
  | cons x t ih =>
    simp only [firstOccurrences, List.mem_cons, List.mem_filter, ih, decide_eq_true_eq]
    by_cases h : a = x <;> simp [h]

theorem nodup_firstOccurrences (xs : List (List Char)) :
    (firstOccurrences xs).Nodup := by
  induction xs with
  | nil => simp [firstOccurrences]
  | cons x t ih =>
    simp only [firstOccurrences, List.nodup_cons, List.mem_filter, decide_eq_true_eq]
    exact ⟨fun h => h.2 rfl, ih.filter _⟩

theorem pairwise_firstOccurrences (xs : List (List Char)) :
    (firstOccurrences xs).Pairwise (fun a b => xs.indexOf a < xs.indexOf b) := by
  induction xs with
  | nil => simp [firstOccurrences]
  | cons x t ih =>
    simp only [firstOccurrences, List.pairwise_cons, List.mem_filter, decide_eq_true_eq]
    constructor
    · rintro b ⟨_, hb⟩
      have hxb : (x == b) = false := beq_false_of_ne (Ne.symm hb)
      rw [List.indexOf_cons, List.indexOf_cons, hxb]
      simp
    · have h2 := ih.filter (fun y => decide (y ≠ x))
      refine List.Pairwise.imp_of_mem ?_ h2
      intro a b ha hb hab
      simp only [List.mem_filter, decide_eq_true_eq] at ha hb
      have hxa : (x == a) = false := beq_false_of_ne (Ne.symm ha.2)
      have hxb : (x == b) = false := beq_false_of_ne (Ne.symm hb.2)
      rw [List.indexOf_cons, List.indexOf_cons, hxa, hxb]
      simpa using hab

theorem isFirstOccurrenceList_firstOccurrences (xs : List (List Char)) :
    IsFirstOccurrenceList (firstOccurrences xs) xs :=
  ⟨nodup_firstOccurrences xs, mem_firstOccurrences xs, pairwise_firstOccurrences xs⟩

/-- The loop of `UniqueStrings`, started in a state whose map `seen` holds exactly the
strings of `result`. -/
theorem common.UniqueStrings_loop (xs seen result : List (List Char))
    (hinv : ∀ s, s ∈ seen ↔ s ∈ result) :
    (xs.foldl
      (fun (st : List (List Char) × List (List Char)) s =>
        if !st.1.contains s then (s :: st.1, st.2 ++ [s]) else st)
      (seen, result)).2
      = result ++ (firstOccurrences xs).filter (fun y => decide (y ∉ result)) := by
  induction xs generalizing seen result with
  | nil => simp [firstOccurrences]
  | cons x t ih =>
    simp only [List.foldl_cons, firstOccurrences]
    by_cases hx : x ∈ result
    · have hs : seen.contains x = true := by simpa using (hinv x).mpr hx
      simp only [hs, Bool.not_true, Bool.false_eq_true, if_false]
      rw [ih seen result hinv]
      simp only [List.filter_cons, hx, not_true_eq_false, decide_False, Bool.false_eq_true,
        if_false]
      congr 1
      rw [List.filter_filter]
      apply List.filter_congr
      intro y _
      by_cases hy : y ∈ result
      · simp [hy]
      · have : y ≠ x := fun h => hy (h ▸ hx)
        simp [hy, this]
    · have hs : seen.contains x = false := by
        simpa using (fun h => hx ((hinv x).mp h))
      simp only [hs, Bool.not_false, if_true]
      rw [ih (x :: seen) (result ++ [x]) (by
        intro s
        simp only [List.mem_cons, List.mem_append, List.mem_singleton, hinv s]
        tauto)]
      simp only [List.filter_cons, hx, not_false_eq_true, decide_True, if_true,
        List.append_assoc, List.singleton_append]
      congr 2
      rw [List.filter_filter]
      apply List.filter_congr
      intro y _
      simp only [List.mem_append, List.mem_singleton, not_or, Bool.decide_and]

theorem common.UniqueStrings_eq (xs : List (List Char)) :
    common.UniqueStrings xs = firstOccurrences xs := by
  unfold common.UniqueStrings
  rw [common.UniqueStrings_loop xs [] [] (by simp)]
  simp

/-! ## Hostnames produced by the sources -/

theorem common.NormalizeDomain_hostname (L : Stdlib) (s : List Char)
    (h : common.NormalizeDomain L s ≠ []) : IsHostname (common.NormalizeDomain L s) :=
  (common.NormalizeDomain_cases L s).resolve_left h

theorem foldl_invariant {α β : Type} (P : β → Prop) (f : β → α → β)
    (hstep : ∀ b a, P b → P (f b a)) (l : List α) (init : β) (h0 : P init) :
    P (l.foldl f init) := by
  induction l generalizing init with
  | nil => exact h0
  | cons a t ih => exact ih _ (hstep _ _ h0)

theorem allHost_snoc {l : List (List Char)} {d : List Char}
    (hl : ∀ x ∈ l, IsHostname x) (hd : IsHostname d) : ∀ x ∈ l ++ [d], IsHostname x := by
  intro x hx
  rcases List.mem_append.mp hx with h | h
  · exact hl x h
  · rw [List.mem_singleton.mp h]; exact hd

theorem source.collectMatches_hostnames (L : Stdlib) (banned : List (List Char))
    (found : List (List (List Char))) :
    ∀ d ∈ source.collectMatches L banned found, IsHostname d := by
  unfold source.collectMatches
  apply foldl_invariant (fun l => ∀ d ∈ l, IsHostname d)
  · intro b m hb
    dsimp only
    split
    · split
      · rename_i h
        exact allHost_snoc hb (common.NormalizeDomain_hostname L _ h.1)
      · exact hb
    · exact hb
  · simp

theorem source.collectLines_hostnames (L : Stdlib) (banned : List Char)
    (found : List (List (List Char))) :
    ∀ d ∈ source.collectLines L banned found, IsHostname d := by
  unfold source.collectLines
  apply foldl_invariant (fun l => ∀ d ∈ l, IsHostname d)
  · intro b m hb
    dsimp only
    split
    · apply foldl_invariant (fun l => ∀ d ∈ l, IsHostname d)
      · intro b2 line hb2
        dsimp only
        split
        · rename_i h
          exact allHost_snoc hb2 (common.NormalizeDomain_hostname L _ h.1)
        · exact hb2
      · exact hb
    · exact hb
  · simp

theorem source.parseTHCLine_hostnames (L : Stdlib) (st : List (List Char) × List Char)
    (text : List Char) (h : ∀ d ∈ st.1, IsHostname d) :
    ∀ d ∈ (source.parseTHCLine L st text).1, IsHostname d := by
  unfold source.parseTHCLine
  dsimp only
  split
  · exact h
  · split
    · exact h
    · split
      · split
        · rename_i hne
          exact allHost_snoc h (common.NormalizeDomain_hostname L _ hne)
        · exact h
      · exact h

theorem source.parseTHCResponse_hostnames (L : Stdlib) (body : List Char) :
    ∀ d ∈ (source.parseTHCResponse L body).1, IsHostname d := by
  unfold source.parseTHCResponse
  exact foldl_invariant (fun st => ∀ d ∈ st.1, IsHostname d) (source.parseTHCLine L)
    (fun st text hst => source.parseTHCLine_hostnames L st text hst) _ ([], [])
    (fun d hd => absurd hd (List.not_mem_nil d))

theorem common.mem_UniqueStrings (xs : List (List Char)) (d : List Char) :
    d ∈ common.UniqueStrings xs ↔ d ∈ xs := by
  rw [common.UniqueStrings_eq]; exact mem_firstOccurrences xs d

theorem common.nodup_UniqueStrings (xs : List (List Char)) : (common.UniqueStrings xs).Nodup := by
  rw [common.UniqueStrings_eq]; exact nodup_firstOccurrences xs

/-- The ways in which a single-request source returns. -/
theorem source.singleQuery_cases (L : Stdlib) (E : source.Env) (url : List Char)
    (extract : source.Response → Except source.Err (List (List Char))) (r : source.Result)
    (h : source.singleQuery L E url extract = some r) :
    (r.domains = [] ∧ r.err ≠ none) ∨
      ∃ resp ds, E.Do 0 url = some resp ∧ resp.StatusCode = 200 ∧
        extract resp = Except.ok ds ∧ r.domains = common.UniqueStrings ds ∧ r.err = none := by
  unfold source.singleQuery at h
  split at h
  · exact absurd h (by simp)
  · split at h
    · simp only [Option.some.injEq] at h
      subst h; left; simp
    · rename_i resp hdo
      split at h
      · simp only [Option.some.injEq] at h
        subst h; left; simp
      · rename_i hst
        split at h
        · simp only [Option.some.injEq] at h
          subst h; left; simp
        · rename_i ds hex
          simp only [Option.some.injEq] at h
          subst h
          right
          exact ⟨resp, ds, hdo, by simpa using hst, hex, rfl, rfl⟩

/-! ## The page loop of `THCOrg.Query` -/

/-- The loop returns whenever it is given a turn for every page still allowed and one for
the final test; its result extends the request log by a run that follows the links, of at
most `20 - pageCount` requests; all domains are hostnames, and without duplicates when no
error is returned. -/
theorem source.THCOrg.loop_spec (L : Stdlib) (E : source.Env) :
    ∀ (fuel : Nat) (allDomains : List (List Char)) (nextPage : List Char) (pageCount : Nat)
      (requests : List (List Char)),
      0 < fuel → 21 ≤ pageCount + fuel → (∀ d ∈ allDomains, IsHostname d) →
      ∃ r tail, source.THCOrg.loop L E fuel allDomains nextPage pageCount requests = some r ∧
        r.requests = requests ++ tail ∧ pageCount + tail.length ≤ max pageCount 20 ∧
        source.THCOrg.followsLinks L E pageCount nextPage tail ∧
        source.THCOrg.sendsAll L E pageCount nextPage tail ∧
        (∀ d ∈ r.domains, IsHostname d) ∧ (r.err = none → r.domains.Nodup) := by
  intro fuel
  induction fuel with
  | zero => intro _ _ _ _ h; exact absurd h (by decide)
  | succ fuel ih =>
    intro allDomains nextPage pageCount requests _ hfuel hhost
    have huniq : ∀ d ∈ common.UniqueStrings allDomains, IsHostname d :=
      fun d hd => hhost d ((common.mem_UniqueStrings allDomains d).mp hd)
    unfold source.THCOrg.loop
    by_cases hg : nextPage ≠ [] ∧ pageCount < 20
    · rw [if_pos hg]
      by_cases hdone : E.done pageCount = true
      · simp only [hdone, if_true]
        exact ⟨_, [], rfl, by simp, by simp, trivial, Or.inr (Or.inr (Or.inl hdone)), huniq,
          by simp⟩
      · simp only [hdone, Bool.false_eq_true, if_false]
        by_cases hurl : L.validURL nextPage = true
        · simp only [hurl, Bool.not_true, Bool.false_eq_true, if_false]
          cases hdo : E.Do pageCount nextPage with
          | none =>
            refine ⟨_, [nextPage], rfl, rfl, ?_, ?_, ?_, hhost, by simp⟩
            · simp only [List.length_singleton]; omega
            · exact ⟨rfl, hg.1, Or.inl rfl⟩
            · intro resp h1 _
              rw [hdo] at h1
              exact absurd h1 (by simp)
          | some resp =>
            dsimp only
            by_cases hread : resp.readErr = true
            · simp only [hread, if_true]
              refine ⟨_, [nextPage], rfl, rfl, ?_, ?_, ?_, hhost, by simp⟩
              · simp only [List.length_singleton]; omega
              · exact ⟨rfl, hg.1, Or.inl rfl⟩
              · intro resp' h1 h2
                rw [hdo] at h1
                simp only [Option.some.injEq] at h1
                subst h1
                rw [hread] at h2
                exact absurd h2 (by simp)
            · simp only [hread, Bool.false_eq_true, if_false]
              have hfuel' : 0 < fuel := by omega
              have hhost' : ∀ d ∈ allDomains ++ (source.parseTHCResponse L resp.Body).1,
                  IsHostname d := by
                intro d hd
                rcases List.mem_append.mp hd with h | h
                · exact hhost d h
                · exact source.parseTHCResponse_hostnames L resp.Body d h
              obtain ⟨r, tail, hr, hreq, hlen, hchain, hall, hdom, hnd⟩ :=
                ih (allDomains ++ (source.parseTHCResponse L resp.Body).1)
                  (source.parseTHCResponse L resp.Body).2 (pageCount + 1)
                  (requests ++ [nextPage]) hfuel' (by omega) hhost'
              refine ⟨r, nextPage :: tail, hr, ?_, ?_, ?_, ?_, hdom, hnd⟩
              · rw [hreq]; simp
              · simp only [List.length_cons]; omega
              · exact ⟨rfl, hg.1, Or.inr ⟨resp, hdo, by simpa using hread, hchain⟩⟩
              · intro resp' h1 _
                rw [hdo] at h1
                simp only [Option.some.injEq] at h1
                subst h1
                exact hall
        · simp only [hurl, Bool.not_false, if_true]
          exact ⟨_, [], rfl, by simp, by simp, trivial,
            Or.inr (Or.inr (Or.inr (by simpa using hurl))), hhost, by simp⟩
    · rw [if_neg hg]
      have hstop : nextPage = [] ∨ 20 ≤ pageCount ∨ E.done pageCount = true ∨
          L.validURL nextPage = false := by
        by_cases hn : nextPage = []
        · exact Or.inl hn
        · exact Or.inr (Or.inl (by
            by_contra hc
            exact hg ⟨hn, by omega⟩))
      exact ⟨_, [], rfl, by simp, by simp, trivial, hstop, huniq,
        fun _ => common.nodup_UniqueStrings allDomains⟩

/-- Consecutive requests of a run that follows the links. -/
theorem source.THCOrg.followsLinks_step (L : Stdlib) (E : source.Env) :
    ∀ (urls : List (List Char)) (k : Nat) (next : List Char) (i : Nat) (u v : List Char),
      source.THCOrg.followsLinks L E k next urls →
      urls[i]? = some u → urls[i + 1]? = some v →
      v ≠ [] ∧ ∃ resp, E.Do (k + i) u = some resp ∧ resp.readErr = false ∧
        (source.parseTHCResponse L resp.Body).2 = v := by
  intro urls
  induction urls with
  | nil => intro k next i u v _ hu; simp at hu
  | cons a rest ih =>
    intro k next i u v hch hu hv
    obtain ⟨_, _, hrest⟩ := hch
    rcases hrest with hnil | ⟨resp, hdo, hread, hch'⟩
    · subst hnil; simp at hv
    · cases i with
      | zero =>
        simp only [List.getElem?_cons_zero, Option.some.injEq] at hu
        subst hu
        cases rest with
        | nil => simp at hv
        | cons b rest' =>
          simp only [zero_add, List.getElem?_cons_succ, List.getElem?_cons_zero,
            Option.some.injEq] at hv
          subst hv
          obtain ⟨hb, hne, _⟩ := hch'
          exact ⟨hb ▸ hne, resp, by simpa using hdo, hread, hb.symm⟩
      | succ j =>
        simp only [List.getElem?_cons_succ] at hu hv
        have := ih (k + 1) _ j u v hch' hu hv
        have hk : k + 1 + j = k + (j + 1) := by omega
        rw [hk] at this
        exact this

theorem source.THCOrg.followsLinks_head (L : Stdlib) (E : source.Env) (k : Nat)
    (next u : List Char) (urls : List (List Char))
    (h : source.THCOrg.followsLinks L E k next urls) (hu : urls[0]? = some u) : u = next := by
  cases urls with
  | nil => simp at hu
  | cons a rest =>
    simp only [List.getElem?_cons_zero, Option.some.injEq] at hu
    exact hu ▸ h.1

/-! ## The buffered writer -/

/-- The loop of `WriteString` does nothing once its condition fails. -/
theorem bufio.WriteString_loop_exit (fuel : Nat) (b : bufio.Writer) (f : os.File) (s : List Nat)
    (h : ¬ (s.length > b.Available ∧ b.err = false)) :
    bufio.Writer.WriteString.loop fuel b f s = (b, f, s) := by
  cases fuel with
  | zero => rfl
  | succ n => unfold bufio.Writer.WriteString.loop; rw [if_neg h]

/-- After a write that goes to the file directly, the loop condition fails. -/
theorem bufio.direct_write_done (b : bufio.Writer) (f : os.File) (s : List Nat) :
    ¬ ((s.drop (f.Write s).2.1).length > ({ b with err := (f.Write s).2.2 } : bufio.Writer).Available
        ∧ ({ b with err := (f.Write s).2.2 } : bufio.Writer).err = false) := by
  unfold os.File.Write
  split
  · simp
  · split <;> simp

/-- With an empty buffer one turn is enough. -/
theorem bufio.WriteString_loop_done_empty (b : bufio.Writer) (f : os.File) (s : List Nat)
    (hb : b.buf.length = 0) :
    ¬ ((bufio.Writer.WriteString.loop 1 b f s).2.2.length >
          (bufio.Writer.WriteString.loop 1 b f s).1.Available
        ∧ (bufio.Writer.WriteString.loop 1 b f s).1.err = false) := by
  by_cases hg : s.length > b.Available ∧ b.err = false
  · unfold bufio.Writer.WriteString.loop
    rw [if_pos hg, if_pos hb]
    dsimp only
    rw [bufio.WriteString_loop_exit _ _ _ _ (bufio.direct_write_done b f s)]
    exact bufio.direct_write_done b f s
  · rw [bufio.WriteString_loop_exit _ _ _ _ hg]
    exact hg

/-- A flush of a writer without recorded error either records one or empties the
buffer. -/
theorem bufio.Flush_err_or_empty (b : bufio.Writer) (f : os.File) (he : b.err = false) :
    (b.Flush f).1.err = true ∨ (b.Flush f).1.buf.length = 0 := by
  unfold bufio.Writer.Flush
  rw [he]
  simp only [Bool.false_eq_true, if_false]
  split
  · right; assumption
  · split
    · left; rfl
    · right; rfl

/-- Two turns are always enough: after them the loop condition of `WriteString` fails,
so the loop has run to its end. -/
theorem bufio.WriteString_loop_done (b : bufio.Writer) (f : os.File) (s : List Nat) :
    ¬ ((bufio.Writer.WriteString.loop 2 b f s).2.2.length >
          (bufio.Writer.WriteString.loop 2 b f s).1.Available
        ∧ (bufio.Writer.WriteString.loop 2 b f s).1.err = false) := by
  by_cases hb : b.buf.length = 0
  · by_cases hg : s.length > b.Available ∧ b.err = false
    · unfold bufio.Writer.WriteString.loop
      rw [if_pos hg, if_pos hb]
      dsimp only
      rw [bufio.WriteString_loop_exit _ _ _ _ (bufio.direct_write_done b f s)]
      exact bufio.direct_write_done b f s
    · rw [bufio.WriteString_loop_exit _ _ _ _ hg]
      exact hg
  · by_cases hg : s.length > b.Available ∧ b.err = false
    · unfold bufio.Writer.WriteString.loop
      rw [if_pos hg, if_neg hb]
      dsimp only
      rcases bufio.Flush_err_or_empty { b with buf := b.buf ++ s.take (min b.Available s.length) }
        f hg.2 with he | he
      · have hd : ¬ ((s.drop (min b.Available s.length)).length >
            (bufio.Writer.Flush { b with buf := b.buf ++ s.take (min b.Available s.length) }
              f).1.Available ∧
            (bufio.Writer.Flush { b with buf := b.buf ++ s.take (min b.Available s.length) }
              f).1.err = false) := by
          rw [he]; simp
        rw [bufio.WriteString_loop_exit _ _ _ _ hd]
        exact hd
      · exact bufio.WriteString_loop_done_empty _ _ _ he
    · rw [bufio.WriteString_loop_exit _ _ _ _ hg]
      exact hg

/-! ### Writes that succeed -/

theorem os.File.Write_healthy (f : os.File) (p : List Nat) (h : f.healthy) :
    (f.Write p).2.1 = p.length ∧ (f.Write p).2.2 = false ∧
      (f.Write p).1.data = f.data ++ p ∧ (f.Write p).1.healthy := by
  obtain ⟨hc, hf⟩ := h
  have hc' : ¬ f.closed = true := by simp [hc]
  unfold os.File.Write
  rw [if_neg hc']
  split
  · rename_i h0
    exact ⟨rfl, rfl, rfl, hc, by simp [h0]⟩
  · rename_i rest h0
    refine ⟨rfl, rfl, rfl, hc, ?_⟩
    intro x hx
    exact hf x (by rw [h0]; exact List.mem_cons_of_mem _ hx)
  · rename_i k rest h0
    have := hf (some k) (by rw [h0]; exact List.mem_cons_self _ _)
    exact absurd this (by simp)

theorem bufio.Flush_healthy (b : bufio.Writer) (f : os.File) (he : b.err = false)
    (h : f.healthy) :
    (b.Flush f).1.buf = [] ∧ (b.Flush f).1.err = false ∧ (b.Flush f).2.2 = false ∧
      (b.Flush f).2.1.data = f.data ++ b.buf ∧ (b.Flush f).2.1.healthy := by
  obtain ⟨hn, hr, hd, hh⟩ := os.File.Write_healthy f b.buf h
  have he' : ¬ b.err = true := by simp [he]
  unfold bufio.Writer.Flush
  rw [if_neg he']
  by_cases h0 : b.buf.length = 0
  · rw [if_pos h0]
    have hb : b.buf = [] := List.length_eq_zero.mp h0
    exact ⟨hb, he, rfl, by rw [hb]; simp, h⟩
  · rw [if_neg h0]
    dsimp only
    have hok : ¬ ((f.Write b.buf).2.2 || decide ((f.Write b.buf).2.1 < b.buf.length)) = true := by
      rw [hr, hn]; simp
    rw [if_neg hok]
    exact ⟨rfl, rfl, rfl, hd, hh⟩

theorem bufio.WriteString_loop_healthy :
    ∀ (fuel : Nat) (b : bufio.Writer) (f : os.File) (s : List Nat), b.err = false → f.healthy →
      (bufio.Writer.WriteString.loop fuel b f s).1.err = false ∧
      (bufio.Writer.WriteString.loop fuel b f s).2.1.healthy ∧
      (bufio.Writer.WriteString.loop fuel b f s).2.1.data ++
          (bufio.Writer.WriteString.loop fuel b f s).1.buf ++
          (bufio.Writer.WriteString.loop fuel b f s).2.2 = f.data ++ b.buf ++ s := by
  intro fuel
  induction fuel with
  | zero => intro b f s he h; exact ⟨he, h, rfl⟩
  | succ n ih =>
    intro b f s he h
    unfold bufio.Writer.WriteString.loop
    by_cases hg : s.length > b.Available ∧ b.err = false
    · rw [if_pos hg]
      by_cases hb : b.buf.length = 0
      · rw [if_pos hb]
        dsimp only
        obtain ⟨hn, hr, hd, hh⟩ := os.File.Write_healthy f s h
        obtain ⟨e1, e2, e3⟩ := ih { b with err := (f.Write s).2.2 } (f.Write s).1
          (s.drop (f.Write s).2.1) hr hh
        refine ⟨e1, e2, ?_⟩
        rw [e3, hd, hn]
        simp [List.length_eq_zero.mp hb]
      · rw [if_neg hb]
        dsimp only
        obtain ⟨f1, f2, _, f4, f5⟩ := bufio.Flush_healthy
          { b with buf := b.buf ++ s.take (min b.Available s.length) } f he h
        obtain ⟨e1, e2, e3⟩ := ih _ _ (s.drop (min b.Available s.length)) f2 f5
        refine ⟨e1, e2, ?_⟩
        rw [e3, f4, f1]
        simp
    · rw [if_neg hg]
      exact ⟨he, h, rfl⟩

/-- On a healthy file `WriteString` returns no error and the text joins the stream of
bytes written or buffered. -/
theorem bufio.WriteString_healthy (b : bufio.Writer) (f : os.File) (s : List Nat)
    (he : b.err = false) (h : f.healthy) :
    (b.WriteString f s).2.2 = false ∧ (b.WriteString f s).1.err = false ∧
      (b.WriteString f s).2.1.healthy ∧
      (b.WriteString f s).2.1.data ++ (b.WriteString f s).1.buf = f.data ++ b.buf ++ s := by
  obtain ⟨e1, e2, e3⟩ := bufio.WriteString_loop_healthy 2 b f s he h
  have hdone := bufio.WriteString_loop_done b f s
  have e1' : ¬ (bufio.Writer.WriteString.loop 2 b f s).1.err = true := by simp [e1]
  unfold bufio.Writer.WriteString
  dsimp only
  rw [if_neg e1']
  refine ⟨rfl, e1, e2, ?_⟩
  dsimp only
  have hle : (bufio.Writer.WriteString.loop 2 b f s).2.2.length ≤
      (bufio.Writer.WriteString.loop 2 b f s).1.Available := by
    by_contra hc
    exact hdone ⟨by omega, e1⟩
  rw [List.take_of_length_le hle, ← List.append_assoc, e3]

/-! ### Writes to a closed file -/

theorem os.File.Write_closed (f : os.File) (p : List Nat) (h : f.closed = true) :
    f.Write p = (f, 0, true) := by
  unfold os.File.Write
  rw [if_pos h]

theorem bufio.Flush_closed (b : bufio.Writer) (f : os.File) (h : f.closed = true) :
    (b.Flush f).2.1 = f := by
  unfold bufio.Writer.Flush
  split
  · rfl
  · split
    · rfl
    · rw [os.File.Write_closed f _ h]
      simp

theorem bufio.WriteString_loop_closed :
    ∀ (fuel : Nat) (b : bufio.Writer) (f : os.File) (s : List Nat), f.closed = true →
      (bufio.Writer.WriteString.loop fuel b f s).2.1 = f := by
  intro fuel
  induction fuel with
  | zero => intro b f s _; rfl
  | succ n ih =>
    intro b f s h
    unfold bufio.Writer.WriteString.loop
    split
    · split
      · dsimp only
        rw [os.File.Write_closed f _ h]
        exact ih _ _ _ h
      · dsimp only
        rw [ih _ _ _ (by rw [bufio.Flush_closed _ f h]; exact h), bufio.Flush_closed _ f h]
    · rfl

theorem bufio.WriteString_closed (b : bufio.Writer) (f : os.File) (s : List Nat)
    (h : f.closed = true) : (b.WriteString f s).2.1 = f := by
  have := bufio.WriteString_loop_closed 2 b f s h
  unfold bufio.Writer.WriteString
  dsimp only
  split <;> exact this

/-- A text that fits the free part of the buffer is appended to the buffer, whatever the
state of the file. -/
theorem bufio.WriteString_fits (b : bufio.Writer) (f : os.File) (s : List Nat)
    (he : b.err = false) (hfit : s.length ≤ b.Available) :
    b.WriteString f s = ({ b with buf := b.buf ++ s }, f, false) := by
  have hg : ¬ (s.length > b.Available ∧ b.err = false) := by omega
  unfold bufio.Writer.WriteString
  rw [bufio.WriteString_loop_exit _ _ _ _ hg]
  dsimp only
  rw [he]
  simp [List.take_of_length_le hfit]

/-! ## The result sink -/

/-- The three ways in which `Write` returns. -/
theorem scanner.Write_cases (w : scanner.OutputWriter) (d : List Char) :
    (d ∈ w.seen ∧ w.Write d = (w, false)) ∨
    (d ∉ w.seen ∧ (w.Write d).2 = true ∧ (w.Write d).1.seen = w.seen ∧
      (w.Write d).1.count = w.count) ∨
    (d ∉ w.seen ∧ (w.Write d).2 = false ∧ (w.Write d).1.seen = d :: w.seen ∧
      (w.Write d).1.count = (w.count + 1) % 2 ^ 64) := by
  unfold scanner.OutputWriter.Write
  by_cases hs : d ∈ w.seen
  · left
    have : w.seen.contains d = true := by simpa using hs
    exact ⟨hs, by rw [if_pos this]⟩
  · right
    have : ¬ w.seen.contains d = true := by simpa using hs
    rw [if_neg this]
    dsimp only
    by_cases he : (w.writer.WriteString w.file (bytes (d ++ "\n".toList))).2.2 = true
    · left
      rw [if_pos he]
      exact ⟨hs, rfl, rfl, rfl⟩
    · right
      rw [if_neg he]
      exact ⟨hs, rfl, rfl, rfl⟩

/-- What is kept true by every `Write`: the lines written are pairwise different, they are
the lines of the domains in `seen`, and the counter is their number modulo `2 ^ 64`. -/
theorem scanner.writeStep_invariant (st : scanner.OutputWriter × List (List Char))
    (d : List Char)
    (h : st.2.Nodup ∧ (∀ x, x ++ "\n".toList ∈ st.2 ↔ x ∈ st.1.seen) ∧
      st.1.count = st.2.length % 2 ^ 64) :
    (scanner.OutputWriter.writeStep st d).2.Nodup ∧
      (∀ x, x ++ "\n".toList ∈ (scanner.OutputWriter.writeStep st d).2 ↔
        x ∈ (scanner.OutputWriter.writeStep st d).1.seen) ∧
      (scanner.OutputWriter.writeStep st d).1.count =
        (scanner.OutputWriter.writeStep st d).2.length % 2 ^ 64 := by
  obtain ⟨hnd, hmem, hcnt⟩ := h
  unfold scanner.OutputWriter.writeStep
  dsimp only
  rcases scanner.Write_cases st.1 d with ⟨hs, hw⟩ | ⟨hs, he, hseen, hc⟩ | ⟨hs, he, hseen, hc⟩
  · have : st.1.seen.contains d = true := by simpa using hs
    rw [hw, this]
    simpa using ⟨hnd, hmem, hcnt⟩
  · rw [he, hseen, hc]
    simpa using ⟨hnd, hmem, hcnt⟩
  · have hc' : st.1.seen.contains d = false := by simpa using hs
    rw [he, hseen, hc, hc']
    simp only [Bool.not_false, Bool.and_self, if_true, List.length_append,
      List.length_singleton, List.mem_append, List.mem_singleton, List.mem_cons]
    refine ⟨?_, ?_, ?_⟩
    · rw [List.nodup_append]
      refine ⟨hnd, List.nodup_singleton _, ?_⟩
      intro a ha hb
      rw [List.mem_singleton] at hb
      subst hb
      exact hs ((hmem d).mp ha)
    · intro x
      rw [hmem x, List.append_left_inj]
      tauto
    · rw [hcnt]; omega

theorem scanner.writeAll_invariant (filename : List Char) (faults : List (Option Nat))
    (calls : List (List Char)) :
    ((scanner.OutputWriter.fresh filename faults).writeAll calls).2.Nodup ∧
      (∀ x, x ++ "\n".toList ∈ ((scanner.OutputWriter.fresh filename faults).writeAll calls).2 ↔
        x ∈ ((scanner.OutputWriter.fresh filename faults).writeAll calls).1.seen) ∧
      ((scanner.OutputWriter.fresh filename faults).writeAll calls).1.count =
        ((scanner.OutputWriter.fresh filename faults).writeAll calls).2.length % 2 ^ 64 := by
  unfold scanner.OutputWriter.writeAll
  exact foldl_invariant
    (fun st : scanner.OutputWriter × List (List Char) =>
      st.2.Nodup ∧ (∀ x, x ++ "\n".toList ∈ st.2 ↔ x ∈ st.1.seen) ∧
        st.1.count = st.2.length % 2 ^ 64)
    scanner.OutputWriter.writeStep (fun st d h => scanner.writeStep_invariant st d h) calls
    (scanner.OutputWriter.fresh filename faults, [])
    (by simp [scanner.OutputWriter.fresh])

/-- The counter read through `Count()` when it is in the range of `int`. -/
theorem scanner.Count_of_count (w : scanner.OutputWriter) (n : Nat) (hn : n < 2 ^ 63)
    (h : w.count = n % 2 ^ 64) : w.Count = (n : Int) := by
  have h1 : n % 2 ^ 64 = n := Nat.mod_eq_of_lt (by omega)
  rw [h1] at h
  unfold scanner.OutputWriter.Count
  rw [h, if_pos hn]

/-! ### The sink on a healthy file -/

theorem bytes_append (a b : List Char) : bytes (a ++ b) = bytes a ++ bytes b := by
  simp [bytes]

/-- `Write` on a healthy file: a new domain is always written. -/
theorem scanner.sinkWrite_healthy (w : scanner.OutputWriter) (d : List Char)
    (he : w.writer.err = false) (hh : w.file.healthy) :
    (w.Write d).1.writer.err = false ∧ (w.Write d).1.file.healthy ∧
      (d ∈ w.seen → w.Write d = (w, false)) ∧
      (d ∉ w.seen → (w.Write d).2 = false ∧ (w.Write d).1.seen = d :: w.seen ∧
        (w.Write d).1.file.data ++ (w.Write d).1.writer.buf =
          w.file.data ++ w.writer.buf ++ bytes (d ++ "\n".toList)) := by
  obtain ⟨k1, k2, k3, k4⟩ :=
    bufio.WriteString_healthy w.writer w.file (bytes (d ++ "\n".toList)) he hh
  have k1' : ¬ (w.writer.WriteString w.file (bytes (d ++ "\n".toList))).2.2 = true := by
    rw [k1]; exact Bool.false_ne_true
  unfold scanner.OutputWriter.Write
  by_cases hs : d ∈ w.seen
  · have : w.seen.contains d = true := by simpa using hs
    rw [if_pos this]
    exact ⟨he, hh, fun _ => rfl, fun h => absurd hs h⟩
  · have : ¬ w.seen.contains d = true := by simpa using hs
    rw [if_neg this]
    dsimp only
    rw [if_neg k1']
    exact ⟨k2, k3, fun h => absurd h hs, fun _ => ⟨rfl, rfl, k4⟩⟩

/-- On a healthy file the lines written are those of the domains not seen before, each at
its first occurrence. -/
theorem scanner.writeAll_healthy_lines :
    ∀ (ds : List (List Char)) (w : scanner.OutputWriter) (lines : List (List Char)),
      w.writer.err = false → w.file.healthy →
      (ds.foldl scanner.OutputWriter.writeStep (w, lines)).2 =
        lines ++ ((firstOccurrences ds).filter (fun y => decide (y ∉ w.seen))).map
          (fun y => y ++ "\n".toList) := by
  intro ds
  induction ds with
  | nil => intro w lines _ _; simp [firstOccurrences]
  | cons x t ih =>
    intro w lines he hh
    obtain ⟨k1, k2, k3, k4⟩ := scanner.sinkWrite_healthy w x he hh
    simp only [List.foldl_cons, firstOccurrences]
    by_cases hx : x ∈ w.seen
    · have hc : w.seen.contains x = true := by simpa using hx
      have hstep : scanner.OutputWriter.writeStep (w, lines) x = (w, lines) := by
        unfold scanner.OutputWriter.writeStep
        dsimp only
        rw [k3 hx, hc]
        simp
      rw [hstep, ih w lines he hh]
      congr 2
      simp only [List.filter_cons, hx, not_true_eq_false, decide_False, Bool.false_eq_true,
        if_false]
      rw [List.filter_filter]
      apply List.filter_congr
      intro y _
      by_cases hy : y ∈ w.seen
      · simp [hy]
      · have : y ≠ x := fun h => hy (h ▸ hx)
        simp [hy, this]
    · have hc : w.seen.contains x = false := by simpa using hx
      obtain ⟨e1, e2, _⟩ := k4 hx
      have hstep : scanner.OutputWriter.writeStep (w, lines) x =
          ((w.Write x).1, lines ++ [x ++ "\n".toList]) := by
        unfold scanner.OutputWriter.writeStep
        dsimp only
        rw [e1, hc]
        simp
      rw [hstep, ih (w.Write x).1 (lines ++ [x ++ "\n".toList]) k1 k2, e2]
      simp only [List.filter_cons, hx, not_false_eq_true, decide_True, if_true,
        List.append_assoc, List.singleton_append, List.map_cons]
      congr 3
      rw [List.filter_filter]
      apply List.filter_congr
      intro y _
      simp only [List.mem_cons, not_or, Bool.decide_and]
      rw [Bool.and_comm]

/-- On a healthy file the bytes written or buffered are the lines written, joined. -/
theorem scanner.writeStep_healthy_data (st : scanner.OutputWriter × List (List Char))
    (d : List Char)
    (h : st.1.writer.err = false ∧ st.1.file.healthy ∧
      st.1.file.data ++ st.1.writer.buf = bytes st.2.flatten) :
    (scanner.OutputWriter.writeStep st d).1.writer.err = false ∧
      (scanner.OutputWriter.writeStep st d).1.file.healthy ∧
      (scanner.OutputWriter.writeStep st d).1.file.data ++
        (scanner.OutputWriter.writeStep st d).1.writer.buf =
        bytes (scanner.OutputWriter.writeStep st d).2.flatten := by
  obtain ⟨he, hh, hd⟩ := h
  obtain ⟨k1, k2, k3, k4⟩ := scanner.sinkWrite_healthy st.1 d he hh
  unfold scanner.OutputWriter.writeStep
  dsimp only
  refine ⟨k1, k2, ?_⟩
  by_cases hx : d ∈ st.1.seen
  · have hc : st.1.seen.contains d = true := by simpa using hx
    rw [k3 hx, hc]
    simpa using hd
  · have hc : st.1.seen.contains d = false := by simpa using hx
    obtain ⟨e1, _, e3⟩ := k4 hx
    rw [e3, e1, hc, hd]
    simp [bytes_append]

theorem scanner.writeAll_healthy_data (filename : List Char) (faults : List (Option Nat))
    (hf : ∀ x ∈ faults, x = none) (ds : List (List Char)) :
    ((scanner.OutputWriter.fresh filename faults).writeAll ds).1.Close.file.data =
      bytes ((scanner.OutputWriter.fresh filename faults).writeAll ds).2.flatten := by
  have h := foldl_invariant
    (fun st : scanner.OutputWriter × List (List Char) =>
      st.1.writer.err = false ∧ st.1.file.healthy ∧
        st.1.file.data ++ st.1.writer.buf = bytes st.2.flatten)
    scanner.OutputWriter.writeStep (fun st d h => scanner.writeStep_healthy_data st d h) ds
    (scanner.OutputWriter.fresh filename faults, [])
    ⟨rfl, ⟨rfl, hf⟩, by simp [scanner.OutputWriter.fresh, bytes]⟩
  obtain ⟨he, hh, hd⟩ := h
  obtain ⟨_, _, _, f4, _⟩ := bufio.Flush_healthy _ _ he hh
  unfold scanner.OutputWriter.writeAll
  unfold scanner.OutputWriter.Close
  dsimp only
  unfold os.File.Close
  dsimp only
  rw [f4, hd]

/-- In a complete run that follows the links, an answered page with a link is followed by
the request to that link, unless the page cap is reached, the context is done or the URL is
rejected. -/
theorem source.THCOrg.sendsAll_step (L : Stdlib) (E : source.Env) :
    ∀ (urls : List (List Char)) (k : Nat) (next : List Char) (i : Nat) (u : List Char)
      (resp : source.Response),
      source.THCOrg.followsLinks L E k next urls → source.THCOrg.sendsAll L E k next urls →
      urls[i]? = some u → E.Do (k + i) u = some resp → resp.readErr = false →
      (source.parseTHCResponse L resp.Body).2 ≠ [] → k + i + 1 < 20 →
      E.done (k + i + 1) = false → L.validURL (source.parseTHCResponse L resp.Body).2 = true →
      urls[i + 1]? = some (source.parseTHCResponse L resp.Body).2 := by
  intro urls
  induction urls with
  | nil => intro k next i u resp _ _ hu; simp at hu
  | cons a rest ih =>
    intro k next i u resp hch hall hu hdo hread hlink hcap hdone hurl
    obtain ⟨_, _, hrest⟩ := hch
    cases i with
    | zero =>
      simp only [List.getElem?_cons_zero, Option.some.injEq] at hu
      subst hu
      rw [Nat.add_zero] at hdo hcap hdone
      have hall' := hall resp hdo hread
      cases rest with
      | nil =>
        rcases hall' with h | h | h | h
        · exact absurd h hlink
        · omega
        · rw [hdone] at h; exact absurd h (by simp)
        · rw [hurl] at h; exact absurd h (by simp)
      | cons b rest' =>
        rcases hrest with hnil | ⟨resp', hdo', _, hch'⟩
        · exact absurd hnil (by simp)
        · rw [hdo] at hdo'
          simp only [Option.some.injEq] at hdo'
          subst hdo'
          simp only [zero_add, List.getElem?_cons_succ, List.getElem?_cons_zero,
            Option.some.injEq]
          exact hch'.1
    | succ j =>
      simp only [List.getElem?_cons_succ] at hu ⊢
      rcases hrest with hnil | ⟨resp', hdo', hread', hch'⟩
      · subst hnil; simp at hu
      · have hall' := hall resp' hdo' hread'
        have e1 : k + (j + 1) = k + 1 + j := by omega
        rw [e1] at hdo hcap hdone
        exact ih (k + 1) _ j u resp hch' hall' hu hdo hread hlink hcap hdone hurl

theorem source.THCOrg.sendsAll_head (L : Stdlib) (E : source.Env) (next : List Char)
    (urls : List (List Char)) (hch : source.THCOrg.followsLinks L E 0 next urls)
    (hall : source.THCOrg.sendsAll L E 0 next urls) (hne : next ≠ [])
    (hdone : E.done 0 = false) (hurl : L.validURL next = true) : urls[0]? = some next := by
  cases urls with
  | nil =>
    rcases hall with h | h | h | h
    · exact absurd h hne
    · omega
    · rw [hdone] at h; exact absurd h (by simp)
    · rw [hurl] at h; exact absurd h (by simp)
  | cons a rest =>
    simp only [List.getElem?_cons_zero, Option.some.injEq]
    exact hch.1

/-! ## The normaliser and the deduplication of the sources -/

/-- C9. For every input `s`, `NormalizeDomain(s)` is either the empty string or a
non-empty string that contains a `.` and consists only of the characters `a`-`z`,
`0`-`9`, `.` and `-`; hence every hostname that `parseTHCResponse` keeps, and every
hostname in the list any of the six `Query` functions returns, is non-empty and over that
alphabet. -/
theorem NormalizeDomain_empty_or_hostname (L : Stdlib) :
    (∀ s : List Char, common.NormalizeDomain L s = [] ∨
      (common.NormalizeDomain L s ≠ [] ∧ '.' ∈ common.NormalizeDomain L s ∧
        ∀ c ∈ common.NormalizeDomain L s,
          ('a' ≤ c ∧ c ≤ 'z') ∨ ('0' ≤ c ∧ c ≤ '9') ∨ c = '.' ∨ c = '-')) ∧
    (∀ body : List Char, ∀ d ∈ (source.parseTHCResponse L body).1, IsHostname d) ∧
    (∀ (E : source.Env) (n : source.Name) (ip : List Char) (r : source.Result),
      source.Query L E n ip = some r → ∀ d ∈ r.domains, IsHostname d) := by
  refine ⟨fun s => common.NormalizeDomain_cases L s, source.parseTHCResponse_hostnames L, ?_⟩
  intro E n ip r h d hd
  have single : ∀ (url : List Char)
      (extract : source.Response → Except source.Err (List (List Char))),
      (∀ resp ds, extract resp = Except.ok ds → ∀ x ∈ ds, IsHostname x) →
      source.singleQuery L E url extract = some r → IsHostname d := by
    intro url extract hex hq
    rcases source.singleQuery_cases L E url extract r hq with ⟨h0, _⟩ | ⟨resp, ds, _, _, he, hdom, _⟩
    · rw [h0] at hd; exact absurd hd (List.not_mem_nil d)
    · rw [hdom] at hd
      exact hex resp ds he d ((common.mem_UniqueStrings ds d).mp hd)
  cases n with
  | rapiddns =>
    unfold source.Query source.RapidDNS.Query at h
    refine single _ _ ?_ h
    intro resp ds he
    simp only [Except.ok.injEq] at he
    subst he
    exact source.collectMatches_hostnames L _ _
  | webscan =>
    unfold source.Query source.WebScan.Query at h
    refine single _ _ ?_ h
    intro resp ds he
    split at he
    · exact absurd he (by simp)
    · split at he
      · exact absurd he (by simp)
      · simp only [Except.ok.injEq] at he
        subst he
        apply foldl_invariant (fun l => ∀ x ∈ l, IsHostname x)
        · intro b item hb
          split
          · split
            · rename_i hne
              exact allHost_snoc hb (common.NormalizeDomain_hostname L _ hne)
            · exact hb
          · exact hb
        · simp
  | tntcode =>
    unfold source.Query source.TNTcode.Query at h
    refine single _ _ ?_ h
    intro resp ds he
    simp only [Except.ok.injEq] at he
    subst he
    exact source.collectLines_hostnames L _ _
  | networksdb =>
    unfold source.Query source.NetworksDB.Query at h
    refine single _ _ ?_ h
    intro resp ds he
    simp only [Except.ok.injEq] at he
    subst he
    exact source.collectLines_hostnames L _ _
  | chaxunle =>
    unfold source.Query source.Chaxunle.Query at h
    refine single _ _ ?_ h
    intro resp ds he
    simp only [Except.ok.injEq] at he
    subst he
    exact source.collectMatches_hostnames L _ _
  | thcOrg =>
    obtain ⟨r', _, hr, _, _, _, _, hdom, _⟩ := source.THCOrg.loop_spec L E 21 []
      (source.THCOrg.baseURL ip) 0 [] (by decide) (by decide) (by simp)
    have h' : source.THCOrg.loop L E 21 [] (source.THCOrg.baseURL ip) 0 [] = some r := h
    rw [hr] at h'
    simp only [Option.some.injEq] at h'
    subst h'
    exact hdom d hd

/-- Instance of C9: the hostname kept from the raw text `https://www.Example.COM:8080/x`
is `example.com`, non-empty, with a dot and over the host alphabet. -/
theorem NormalizeDomain_empty_or_hostname_witness :
    common.NormalizeDomain Stdlib.ascii "https://www.Example.COM:8080/x".toList
        = "example.com".toList ∧
      ∀ c ∈ common.NormalizeDomain Stdlib.ascii "https://www.Example.COM:8080/x".toList,
        ('a' ≤ c ∧ c ≤ 'z') ∨ ('0' ≤ c ∧ c ≤ '9') ∨ c = '.' ∨ c = '-' :=
  ⟨by decide,
    (((NormalizeDomain_empty_or_hostname Stdlib.ascii).1
      "https://www.Example.COM:8080/x".toList).resolve_left (by decide)).2.2⟩

/-- C10, as the code has it: a second pass of `NormalizeDomain` returns the result of
the first unchanged exactly when that result does not begin with `www.`. -/
theorem NormalizeDomain_twice_iff (L : Stdlib) (s : List Char) :
    common.NormalizeDomain L (common.NormalizeDomain L s) = common.NormalizeDomain L s ↔
      strings.HasPrefix (common.NormalizeDomain L s) "www.".toList = false := by
  rcases common.NormalizeDomain_cases L s with h0 | hh
  · rw [h0, common.NormalizeDomain_nil]
    exact ⟨fun _ => rfl, fun _ => rfl⟩
  · generalize common.NormalizeDomain L s = d at hh
    rw [common.NormalizeDomain_of_allowed L d hh.1 hh.allowed]
    by_cases hp : strings.HasPrefix d "www.".toList = true
    · have hlen : (strings.TrimPrefix d "www.".toList).length < d.length := by
        have h4 : 4 ≤ d.length := by
          have := (List.isPrefixOf_iff_prefix.mp hp).length_le
          simpa using this
        unfold strings.TrimPrefix
        rw [if_pos hp]
        simp only [List.length_drop]
        have : "www.".toList.length = 4 := rfl
        omega
      constructor
      · intro h
        exfalso
        split at h
        · rw [h] at hlen; exact Nat.lt_irrefl _ hlen
        · exact hh.1 h.symm
      · intro h; rw [hp] at h; exact absurd h (by decide)
    · have hp' : strings.HasPrefix d "www.".toList = false := by simpa using hp
      have ht : strings.TrimPrefix d "www.".toList = d := by
        unfold strings.TrimPrefix
        rw [if_neg hp]
      rw [ht, (strings.Contains_dot d).mpr hh.2.1]
      exact ⟨fun _ => hp', fun _ => rfl⟩

/-- C10 as stated fails: normalising `www.www.a.b` gives `www.a.b`, and normalising
that gives `a.b`. -/
theorem NormalizeDomain_not_idempotent :
    common.NormalizeDomain Stdlib.ascii "www.www.a.b".toList = "www.a.b".toList ∧
    common.NormalizeDomain Stdlib.ascii
        (common.NormalizeDomain Stdlib.ascii "www.www.a.b".toList) = "a.b".toList ∧
    common.NormalizeDomain Stdlib.ascii
        (common.NormalizeDomain Stdlib.ascii "www.www.a.b".toList) ≠
      common.NormalizeDomain Stdlib.ascii "www.www.a.b".toList := by
  decide

/-- Instance of the amended C10: `example.com` does not begin with `www.`, and a second
pass returns it unchanged. -/
theorem NormalizeDomain_twice_iff_witness :
    common.NormalizeDomain Stdlib.ascii
        (common.NormalizeDomain Stdlib.ascii "http://Example.com/".toList) =
      common.NormalizeDomain Stdlib.ascii "http://Example.com/".toList :=
  (NormalizeDomain_twice_iff Stdlib.ascii "http://Example.com/".toList).mpr (by decide)

/-- C8. For every list `xs`, `UniqueStrings(xs)` has no duplicate, holds exactly the
strings of `xs`, and lists them in the order of their first occurrence in `xs`; hence the
list any of the six `Query` functions returns without error has no duplicate. -/
theorem UniqueStrings_first_occurrences :
    (∀ xs : List (List Char),
      (common.UniqueStrings xs).Nodup ∧
      (∀ s, s ∈ common.UniqueStrings xs ↔ s ∈ xs) ∧
      (common.UniqueStrings xs).Pairwise (fun a b => xs.indexOf a < xs.indexOf b)) ∧
    (∀ (L : Stdlib) (E : source.Env) (n : source.Name) (ip : List Char) (r : source.Result),
      source.Query L E n ip = some r → r.err = none → r.domains.Nodup) := by
  constructor
  · intro xs
    rw [common.UniqueStrings_eq]
    exact ⟨nodup_firstOccurrences xs, mem_firstOccurrences xs, pairwise_firstOccurrences xs⟩
  · intro L E n ip r h herr
    have single : ∀ (url : List Char)
        (extract : source.Response → Except source.Err (List (List Char))),
        source.singleQuery L E url extract = some r → r.domains.Nodup := by
      intro url extract hq
      rcases source.singleQuery_cases L E url extract r hq with ⟨h0, _⟩ | ⟨_, ds, _, _, _, hdom, _⟩
      · rw [h0]; exact List.nodup_nil
      · rw [hdom]; exact common.nodup_UniqueStrings ds
    cases n with
    | rapiddns =>
      unfold source.Query source.RapidDNS.Query at h
      exact single _ _ h
    | webscan =>
      unfold source.Query source.WebScan.Query at h
      exact single _ _ h
    | tntcode =>
      unfold source.Query source.TNTcode.Query at h
      exact single _ _ h
    | networksdb =>
      unfold source.Query source.NetworksDB.Query at h
      exact single _ _ h
    | chaxunle =>
      unfold source.Query source.Chaxunle.Query at h
      exact single _ _ h
    | thcOrg =>
      obtain ⟨r', _, hr, _, _, _, _, _, hnd⟩ := source.THCOrg.loop_spec L E 21 []
        (source.THCOrg.baseURL ip) 0 [] (by decide) (by decide) (by simp)
      have h' : source.THCOrg.loop L E 21 [] (source.THCOrg.baseURL ip) 0 [] = some r := h
      rw [hr] at h'
      simp only [Option.some.injEq] at h'
      subst h'
      exact hnd herr

/-- Instance of C8: a page of the paginating source that lists `a.b` twice yields the
one hostname `a.b`. -/
theorem UniqueStrings_first_occurrences_witness :
    source.Query Stdlib.ascii ⟨fun _ _ => some ⟨200, "a.b\nc.d\na.b\n".toList, false⟩,
        fun _ => false⟩ source.Name.thcOrg "1.1.1.1".toList
      = some ⟨["a.b".toList, "c.d".toList], none, ["https://ip.thc.org/1.1.1.1".toList]⟩ ∧
    ["a.b".toList, "c.d".toList].Nodup :=
  ⟨by decide, UniqueStrings_first_occurrences.2 Stdlib.ascii
    ⟨fun _ _ => some ⟨200, "a.b\nc.d\na.b\n".toList, false⟩, fun _ => false⟩
    source.Name.thcOrg "1.1.1.1".toList
    ⟨["a.b".toList, "c.d".toList], none, ["https://ip.thc.org/1.1.1.1".toList]⟩
    (by decide) rfl⟩

/-! ## Loading the IP list -/

theorem main.scanLoop_loop (L : Stdlib) :
    ∀ (lines : List (List Char)) (st : List (List Char) × List (List Char)),
      (lines.foldl
        (fun (st : List (List Char) × List (List Char)) text =>
          let ip := strings.TrimSpace text
          if ip = [] then st
          else if strings.HasPrefix ip "#".toList || strings.HasPrefix ip "//".toList then st
          else if !common.IsValidIP L ip then (st.1, st.2 ++ [ip])
          else (st.1 ++ [ip], st.2))
        st).1 =
      st.1 ++ (lines.map strings.TrimSpace).filter (main.keptLine L) := by
  intro lines
  induction lines with
  | nil => intro st; simp
  | cons text t ih =>
    intro st
    simp only [List.foldl_cons, List.map_cons]
    by_cases h1 : strings.TrimSpace text = []
    · have hp : ¬ main.keptLine L (strings.TrimSpace text) = true := by
        unfold main.keptLine
        rw [decide_eq_false (not_not.mpr h1)]; simp
      rw [if_pos h1, ih, @List.filter_cons_of_neg _ (main.keptLine L) _ _ hp]
    · rw [if_neg h1]
      by_cases h2 : (strings.HasPrefix (strings.TrimSpace text) "#".toList ||
          strings.HasPrefix (strings.TrimSpace text) "//".toList) = true
      · have hp : ¬ main.keptLine L (strings.TrimSpace text) = true := by
          unfold main.keptLine
          rcases (Bool.or_eq_true _ _).mp h2 with h | h
          · rw [h]; simp
          · rw [h]; simp
        rw [if_pos h2, ih, @List.filter_cons_of_neg _ (main.keptLine L) _ _ hp]
      · rw [if_neg h2]
        have h2' := h2
        rw [Bool.or_eq_true, not_or, Bool.not_eq_true, Bool.not_eq_true] at h2'
        by_cases h3 : common.IsValidIP L (strings.TrimSpace text) = true
        · have hv : ¬ (!common.IsValidIP L (strings.TrimSpace text)) = true := by
            rw [h3]; decide
          have hp : main.keptLine L (strings.TrimSpace text) = true := by
            unfold main.keptLine
            rw [decide_eq_true h1, h2'.1, h2'.2, h3]; decide
          rw [if_neg hv, ih, @List.filter_cons_of_pos _ (main.keptLine L) _ _ hp]
          simp
        · have h3' : common.IsValidIP L (strings.TrimSpace text) = false := by
            rw [Bool.not_eq_true] at h3; exact h3
          have hv : (!common.IsValidIP L (strings.TrimSpace text)) = true := by
            rw [h3']; decide
          have hp : ¬ main.keptLine L (strings.TrimSpace text) = true := by
            unfold main.keptLine
            rw [h3']; simp
          rw [if_pos hv, ih, @List.filter_cons_of_neg _ (main.keptLine L) _ _ hp]

/-- The loop of `main` keeps, in order, the trimmed tokens that `keptLine` accepts. -/
theorem main.scanLoop_eq (L : Stdlib) (tokens : List (List Char)) :
    (main.scanLoop L tokens).1 = (tokens.map strings.TrimSpace).filter (main.keptLine L) := by
  unfold main.scanLoop
  rw [main.scanLoop_loop L tokens ([], [])]
  simp

/-- When every line fits the buffer the scanner delivers every line. -/
theorem bufio.scanLines_of_fits (s : List Char)
    (h : ∀ l ∈ bufio.rawLines s, (bytes l).length < 65536) :
    bufio.scanLines s = (bufio.rawLines s).map bufio.dropCR := by
  unfold bufio.scanLines
  congr 1
  rw [List.takeWhile_eq_self_iff]
  intro l hl
  unfold bufio.fitsBuffer bufio.MaxScanTokenSize
  exact decide_eq_true (h l hl)

/-- What `strings.TrimSpace` removes: white space before and after, and all of it. -/
theorem strings.TrimSpace_spec (s : List Char) :
    ∃ pre post, s = pre ++ strings.TrimSpace s ++ post ∧
      (∀ c ∈ pre, strings.IsSpace c = true) ∧ (∀ c ∈ post, strings.IsSpace c = true) ∧
      (∀ c, (strings.TrimSpace s).head? = some c → strings.IsSpace c = false) ∧
      (∀ c, (strings.TrimSpace s).getLast? = some c → strings.IsSpace c = false) := by
  have hsplit : s.dropWhile strings.IsSpace =
      (s.dropWhile strings.IsSpace).rdropWhile strings.IsSpace ++
        (s.dropWhile strings.IsSpace).rtakeWhile strings.IsSpace := by
    simp only [List.rdropWhile, List.rtakeWhile, ← List.reverse_append,
      List.takeWhile_append_dropWhile, List.reverse_reverse]
  refine ⟨s.takeWhile strings.IsSpace,
    (s.dropWhile strings.IsSpace).rtakeWhile strings.IsSpace, ?_, ?_, ?_, ?_, ?_⟩
  · unfold strings.TrimSpace
    rw [List.append_assoc, ← hsplit, List.takeWhile_append_dropWhile]
  · intro c hc
    exact List.mem_takeWhile_imp hc
  · intro c hc
    exact List.mem_rtakeWhile_imp hc
  · intro c hc
    unfold strings.TrimSpace at hc
    have hpre : (s.dropWhile strings.IsSpace).rdropWhile strings.IsSpace <+:
        s.dropWhile strings.IsSpace := List.rdropWhile_prefix _ _
    obtain ⟨t, ht⟩ := hpre
    cases hr : (s.dropWhile strings.IsSpace).rdropWhile strings.IsSpace with
    | nil => rw [hr] at hc; exact absurd hc (by simp)
    | cons x rest =>
      rw [hr] at hc ht
      simp only [List.head?_cons, Option.some.injEq] at hc
      subst hc
      have hd := List.head?_dropWhile_not strings.IsSpace s
      rw [← ht] at hd
      simpa using hd
  · intro c hc
    unfold strings.TrimSpace at hc
    have hne : (s.dropWhile strings.IsSpace).rdropWhile strings.IsSpace ≠ [] := by
      intro h0; rw [h0] at hc; exact absurd hc (by simp)
    have hl := List.rdropWhile_last_not strings.IsSpace (s.dropWhile strings.IsSpace) hne
    rw [List.getLast?_eq_getLast _ hne] at hc
    simp only [Option.some.injEq] at hc
    rw [hc] at hl
    simpa using hl

theorem strings.Split_append_sep (a b : List Char) (sep : Char) (h : sep ∉ a) :
    strings.Split (a ++ sep :: b) sep = a :: strings.Split b sep := by
  induction a with
  | nil => simp [strings.Split]
  | cons c t ih =>
    have hc : c ≠ sep := fun e => h (e ▸ List.mem_cons_self c t)
    have ht : sep ∉ t := fun e => h (List.mem_cons_of_mem c e)
    rw [List.cons_append, strings.Split, if_neg hc, ih ht]

theorem bytes_replicate_length (n : Nat) : (bytes (List.replicate n 'x')).length = n := by
  induction n with
  | zero => rfl
  | succ n ih =>
    have h1 : utf8 'x' = [120] := by decide
    rw [List.replicate_succ]
    unfold bytes at ih ⊢
    rw [List.map_cons, List.flatten_cons, List.length_append, ih, h1]
    simp [Nat.add_comm]

/-- The scanner delivers nothing of a text that begins with a line of 65536 bytes. -/
theorem bufio.scanLines_long_first_line :
    bufio.rawLines (List.replicate 65536 'x' ++ "\n1.1.1.1\n".toList)
      = [List.replicate 65536 'x', "1.1.1.1".toList] ∧
    bufio.scanLines (List.replicate 65536 'x' ++ "\n1.1.1.1\n".toList) = [] := by
  have hx : '\n' ∉ List.replicate 65536 'x' := by
    intro h
    exact absurd (List.eq_of_mem_replicate h) (by decide)
  have htail : "\n1.1.1.1\n".toList = '\n' :: "1.1.1.1\n".toList := rfl
  have hs : strings.Split "1.1.1.1\n".toList '\n' = ["1.1.1.1".toList, []] := by decide
  have hraw : bufio.rawLines (List.replicate 65536 'x' ++ "\n1.1.1.1\n".toList)
      = [List.replicate 65536 'x', "1.1.1.1".toList] := by
    unfold bufio.rawLines
    rw [htail, strings.Split_append_sep _ _ _ hx, hs]
    rfl
  refine ⟨hraw, ?_⟩
  have hfit : bufio.fitsBuffer (List.replicate 65536 'x') = false := by
    unfold bufio.fitsBuffer bufio.MaxScanTokenSize
    rw [bytes_replicate_length]
    decide
  unfold bufio.scanLines
  rw [hraw, List.takeWhile_cons, hfit]
  rfl

/-- C5 as stated fails: in a file whose first line has 65536 bytes and whose second line
is `1.1.1.1`, the second line is a line of the file and a valid target, but the loop of
`main` ends at the first line: the IP list is empty and the program exits with
"No valid IPs found in file". -/
theorem readIPList_stops_at_long_line :
    "1.1.1.1".toList ∈ bufio.rawLines (List.replicate 65536 'x' ++ "\n1.1.1.1\n".toList) ∧
    main.keptLine Stdlib.ascii (strings.TrimSpace "1.1.1.1".toList) = true ∧
    (main.readIPList Stdlib.ascii (List.replicate 65536 'x' ++ "\n1.1.1.1\n".toList)).1 = [] ∧
    main.loadFile Stdlib.ascii (List.replicate 65536 'x' ++ "\n1.1.1.1\n".toList) = none := by
  obtain ⟨hraw, hscan⟩ := bufio.scanLines_long_first_line
  have hlist : (main.readIPList Stdlib.ascii
      (List.replicate 65536 'x' ++ "\n1.1.1.1\n".toList)).1 = [] := by
    unfold main.readIPList
    rw [hscan]
    rfl
  refine ⟨?_, by decide, hlist, ?_⟩
  · rw [hraw]
    exact List.mem_cons_of_mem _ (List.mem_singleton.mpr rfl)
  · unfold main.loadFile
    dsimp only
    rw [hlist]
    rfl

/-- C5, as the code has it.  File-mode input loading: the loop of `main` sees the lines
of the file up to the first line of 65536 bytes or more, where the default
`bufio.Scanner` stops (all lines, when every line is shorter); the IP list is exactly, in
file order, those of these lines, trimmed of white space, that are non-empty, do not begin
with `#` or `//` and pass `IsValidIP` (`keptLine`), the others being skipped; the scanner
is handed exactly this list, and the program exits instead when it is empty.  Trimming
removes white space, and all of it, at both ends.  For the lines `# comment`, the empty
line, `not-an-ip`, `1.1.1.1` the list is `["1.1.1.1"]`, given that `net.ParseIP` accepts
`1.1.1.1` and rejects `not-an-ip`; a line `8.8.8.8` between blanks, with a carriage return,
gives `8.8.8.8`. -/
theorem readIPList_keeps_valid_lines (L : Stdlib) (content : List Char) :
    (main.readIPList L content).1 =
      ((((bufio.rawLines content).takeWhile
          (fun l => decide ((bytes l).length < 65536))).map bufio.dropCR).map
        strings.TrimSpace).filter (main.keptLine L) ∧
    ((∀ l ∈ bufio.rawLines content, (bytes l).length < 65536) →
      (main.readIPList L content).1 =
        (((bufio.rawLines content).map bufio.dropCR).map strings.TrimSpace).filter
          (main.keptLine L)) ∧
    (∀ ips, main.loadFile L content = some ips ↔
      (ips ≠ [] ∧ ips = (main.readIPList L content).1)) ∧
    (∀ s : List Char, ∃ pre post, s = pre ++ strings.TrimSpace s ++ post ∧
      (∀ c ∈ pre, strings.IsSpace c = true) ∧ (∀ c ∈ post, strings.IsSpace c = true) ∧
      (∀ c, (strings.TrimSpace s).head? = some c → strings.IsSpace c = false) ∧
      (∀ c, (strings.TrimSpace s).getLast? = some c → strings.IsSpace c = false)) ∧
    (bufio.rawLines "# comment\n\nnot-an-ip\n1.1.1.1\n".toList
        = ["# comment".toList, [], "not-an-ip".toList, "1.1.1.1".toList] ∧
      (L.ParseIP "1.1.1.1".toList = true → L.ParseIP "not-an-ip".toList = false →
        main.loadFile L "# comment\n\nnot-an-ip\n1.1.1.1\n".toList
          = some ["1.1.1.1".toList])) ∧
    (L.ParseIP "8.8.8.8".toList = true →
      main.loadFile L "  8.8.8.8 \r\n\t// x\n".toList = some ["8.8.8.8".toList]) := by
  have hloop : (main.readIPList L content).1 =
      ((((bufio.rawLines content).takeWhile
          (fun l => decide ((bytes l).length < 65536))).map bufio.dropCR).map
        strings.TrimSpace).filter (main.keptLine L) := by
    unfold main.readIPList
    rw [main.scanLoop_eq]
    rfl
  refine ⟨hloop, ?_, ?_, strings.TrimSpace_spec, ⟨by decide, ?_⟩, ?_⟩
  · intro hfit
    unfold main.readIPList
    rw [main.scanLoop_eq, bufio.scanLines_of_fits content hfit]
  · intro ips
    unfold main.loadFile
    dsimp only
    generalize (main.readIPList L content).1 = res
    by_cases hr : res.length = 0
    · rw [if_pos hr]
      have : res = [] := List.length_eq_zero.mp hr
      subst this
      constructor
      · intro h; exact absurd h (by simp)
      · rintro ⟨h1, h2⟩; exact absurd h2 h1
    · rw [if_neg hr]
      have hne : res ≠ [] := fun h => hr (by rw [h]; rfl)
      constructor
      · intro h
        simp only [Option.some.injEq] at h
        subst h
        exact ⟨hne, rfl⟩
      · rintro ⟨_, h2⟩
        rw [h2]
  · intro hok hbad
    have hscan : bufio.scanLines "# comment\n\nnot-an-ip\n1.1.1.1\n".toList
        = ["# comment".toList, [], "not-an-ip".toList, "1.1.1.1".toList] := by decide
    have e1 : strings.TrimSpace "# comment".toList = "# comment".toList := by decide
    have e2 : strings.TrimSpace [] = [] := by decide
    have e3 : strings.TrimSpace "not-an-ip".toList = "not-an-ip".toList := by decide
    have e4 : strings.TrimSpace "1.1.1.1".toList = "1.1.1.1".toList := by decide
    have k1 : main.keptLine L "# comment".toList = false := by
      unfold main.keptLine
      have : strings.HasPrefix "# comment".toList "#".toList = true := by decide
      rw [this]; simp
    have k2 : main.keptLine L [] = false := by
      unfold main.keptLine
      rw [decide_eq_false (not_not.mpr rfl)]; simp
    have k3 : main.keptLine L "not-an-ip".toList = false := by
      unfold main.keptLine common.IsValidIP
      rw [if_neg (by decide), hbad]; simp
    have k4 : main.keptLine L "1.1.1.1".toList = true := by
      unfold main.keptLine common.IsValidIP
      have p4 : strings.HasPrefix "1.1.1.1".toList "#".toList = false := by decide
      have p4' : strings.HasPrefix "1.1.1.1".toList "//".toList = false := by decide
      have n4 : "1.1.1.1".toList ≠ [] := by decide
      rw [if_neg n4, hok, p4, p4', decide_eq_true n4]; decide
    have hlist : (main.readIPList L "# comment\n\nnot-an-ip\n1.1.1.1\n".toList).1
        = ["1.1.1.1".toList] := by
      unfold main.readIPList
      rw [main.scanLoop_eq, hscan]
      simp only [List.map_cons, List.map_nil, e1, e2, e3, e4]
      rw [@List.filter_cons_of_neg _ (main.keptLine L) _ _ (by rw [k1]; decide),
        @List.filter_cons_of_neg _ (main.keptLine L) _ _ (by rw [k2]; decide),
        @List.filter_cons_of_neg _ (main.keptLine L) _ _ (by rw [k3]; decide),
        @List.filter_cons_of_pos _ (main.keptLine L) _ _ k4]
      rfl
    unfold main.loadFile
    dsimp only
    rw [hlist]
    rfl
  · intro hok
    have hscan : bufio.scanLines "  8.8.8.8 \r\n\t// x\n".toList
        = ["  8.8.8.8 ".toList, "\t// x".toList] := by decide
    have e1 : strings.TrimSpace "  8.8.8.8 ".toList = "8.8.8.8".toList := by decide
    have e2 : strings.TrimSpace "\t// x".toList = "// x".toList := by decide
    have k1 : main.keptLine L "8.8.8.8".toList = true := by
      unfold main.keptLine common.IsValidIP
      have p4 : strings.HasPrefix "8.8.8.8".toList "#".toList = false := by decide
      have p4' : strings.HasPrefix "8.8.8.8".toList "//".toList = false := by decide
      have n4 : "8.8.8.8".toList ≠ [] := by decide
      rw [if_neg n4, hok, p4, p4', decide_eq_true n4]; decide
    have k2 : main.keptLine L "// x".toList = false := by
      unfold main.keptLine
      have : strings.HasPrefix "// x".toList "//".toList = true := by decide
      rw [this]; simp
    have hlist : (main.readIPList L "  8.8.8.8 \r\n\t// x\n".toList).1
        = ["8.8.8.8".toList] := by
      unfold main.readIPList
      rw [main.scanLoop_eq, hscan]
      simp only [List.map_cons, List.map_nil, e1, e2]
      rw [@List.filter_cons_of_pos _ (main.keptLine L) _ _ k1,
        @List.filter_cons_of_neg _ (main.keptLine L) _ _ (by rw [k2]; decide)]
      rfl
    unfold main.loadFile
    dsimp only
    rw [hlist]
    rfl

/-- Instance of the amended C5 with dotted quads for `net.ParseIP`: the example of the
claim, and a line with white space around the address. -/
theorem readIPList_keeps_valid_lines_witness :
    main.loadFile Stdlib.ascii "# comment\n\nnot-an-ip\n1.1.1.1\n".toList
      = some ["1.1.1.1".toList] ∧
    main.loadFile Stdlib.ascii "  8.8.8.8 \r\n\t// x\n".toList = some ["8.8.8.8".toList] :=
  ⟨(readIPList_keeps_valid_lines Stdlib.ascii []).2.2.2.2.1.2 (by decide) (by decide),
    (readIPList_keeps_valid_lines Stdlib.ascii []).2.2.2.2.2 (by decide)⟩

/-! ### The bytes handed to the file and the buffer, with write errors -/

theorem os.File.Write_data (f : os.File) (p : List Nat) :
    (f.Write p).1.data = f.data ++ p.take (f.Write p).2.1 := by
  unfold os.File.Write
  split
  · simp
  · split
    · simp
    · simp
    · rename_i k rest _
      dsimp only
      rw [List.take_eq_take.mpr]
      omega

theorem os.File.Write_noerr (f : os.File) (p : List Nat) (h : (f.Write p).2.2 = false) :
    (f.Write p).2.1 = p.length := by
  unfold os.File.Write at h ⊢
  split
  · rename_i hc; rw [if_pos hc] at h; exact absurd h (by simp)
  · rename_i hc
    rw [if_neg hc] at h
    split
    · rfl
    · rfl
    · rename_i k rest hk
      rw [hk] at h
      exact absurd h (by simp)

/-- A flush moves bytes from the buffer to the file and loses none. -/
theorem bufio.Flush_stream (b : bufio.Writer) (f : os.File) :
    (b.Flush f).2.1.data ++ (b.Flush f).1.buf = f.data ++ b.buf := by
  unfold bufio.Writer.Flush
  split
  · rfl
  · split
    · rfl
    · dsimp only
      split
      · dsimp only
        rw [os.File.Write_data, List.append_assoc, List.take_append_drop]
      · rename_i hok
        dsimp only
        simp only [Bool.or_eq_true, decide_eq_true_eq, not_or, Bool.not_eq_true,
          Nat.not_lt] at hok
        rw [os.File.Write_data, List.take_of_length_le hok.2, List.append_nil]

theorem bufio.Flush_err_of_err (b : bufio.Writer) (f : os.File) (h : b.err = true) :
    (b.Flush f).1.err = true := by
  unfold bufio.Writer.Flush
  rw [if_pos h]
  exact h

/-- The loop of `WriteString` hands a front part of the text to the file and the
buffer and keeps the rest. -/
theorem bufio.WriteString_loop_stream :
    ∀ (fuel : Nat) (b : bufio.Writer) (f : os.File) (s : List Nat),
      ∃ m, (bufio.Writer.WriteString.loop fuel b f s).2.2 = s.drop m ∧
        (bufio.Writer.WriteString.loop fuel b f s).2.1.data ++
          (bufio.Writer.WriteString.loop fuel b f s).1.buf = f.data ++ b.buf ++ s.take m := by
  intro fuel
  induction fuel with
  | zero => intro b f s; exact ⟨0, rfl, by simp [bufio.Writer.WriteString.loop]⟩
  | succ n ih =>
    intro b f s
    unfold bufio.Writer.WriteString.loop
    by_cases hg : s.length > b.Available ∧ b.err = false
    · rw [if_pos hg]
      by_cases hb : b.buf.length = 0
      · rw [if_pos hb]
        dsimp only
        obtain ⟨m, h1, h2⟩ := ih { b with err := (f.Write s).2.2 } (f.Write s).1
          (s.drop (f.Write s).2.1)
        refine ⟨(f.Write s).2.1 + m, ?_, ?_⟩
        · rw [h1, List.drop_drop, Nat.add_comm]
        · rw [h2, os.File.Write_data, List.take_add]
          simp [List.length_eq_zero.mp hb]
      · rw [if_neg hb]
        dsimp only
        obtain ⟨m, h1, h2⟩ := ih
          (bufio.Writer.Flush { b with buf := b.buf ++ s.take (min b.Available s.length) } f).1
          (bufio.Writer.Flush { b with buf := b.buf ++ s.take (min b.Available s.length) } f).2.1
          (s.drop (min b.Available s.length))
        refine ⟨min b.Available s.length + m, ?_, ?_⟩
        · rw [h1, List.drop_drop, Nat.add_comm]
        · rw [h2, bufio.Flush_stream, List.take_add]
          simp
    · rw [if_neg hg]
      exact ⟨0, rfl, by simp⟩

theorem bufio.WriteString_loop_err (fuel : Nat) (b : bufio.Writer) (f : os.File) (s : List Nat)
    (h : b.err = true) : (bufio.Writer.WriteString.loop fuel b f s).1.err = true := by
  rw [bufio.WriteString_loop_exit fuel b f s (by rw [h]; simp)]
  exact h

/-- `WriteString` for any file: bytes already handed over stay in front; without error the
whole text is appended to them; an error is recorded in the writer. -/
theorem bufio.WriteString_stream (b : bufio.Writer) (f : os.File) (s : List Nat) :
    (∃ t, (b.WriteString f s).2.1.data ++ (b.WriteString f s).1.buf = f.data ++ b.buf ++ t) ∧
    ((b.WriteString f s).2.2 = false →
      b.err = false ∧ (b.WriteString f s).1.err = false ∧
        (b.WriteString f s).2.1.data ++ (b.WriteString f s).1.buf = f.data ++ b.buf ++ s) ∧
    ((b.WriteString f s).2.2 = true → (b.WriteString f s).1.err = true) := by
  obtain ⟨m, h1, h2⟩ := bufio.WriteString_loop_stream 2 b f s
  have hdone := bufio.WriteString_loop_done b f s
  unfold bufio.Writer.WriteString
  dsimp only
  by_cases he : (bufio.Writer.WriteString.loop 2 b f s).1.err = true
  · rw [if_pos he]
    exact ⟨⟨_, h2⟩, fun h => absurd h (by simp), fun _ => he⟩
  · rw [if_neg he]
    have he' : (bufio.Writer.WriteString.loop 2 b f s).1.err = false := by simpa using he
    have hle : (bufio.Writer.WriteString.loop 2 b f s).2.2.length ≤
        (bufio.Writer.WriteString.loop 2 b f s).1.Available := by
      by_contra hc
      exact hdone ⟨by omega, he'⟩
    have hall : (bufio.Writer.WriteString.loop 2 b f s).2.1.data ++
        ((bufio.Writer.WriteString.loop 2 b f s).1.buf ++
          (bufio.Writer.WriteString.loop 2 b f s).2.2.take
            (bufio.Writer.WriteString.loop 2 b f s).1.Available) = f.data ++ b.buf ++ s := by
      rw [List.take_of_length_le hle, ← List.append_assoc, h2, h1, List.append_assoc,
        List.append_assoc, List.take_append_drop, List.append_assoc]
    have hb : b.err = false := by
      by_contra hc
      have hc' : b.err = true := by simpa using hc
      exact he (bufio.WriteString_loop_err 2 b f s hc')
    exact ⟨⟨s, hall⟩, fun _ => ⟨hb, he', hall⟩, fun h => absurd h (by simp)⟩

/-- Kept true by every `Write`, whatever the file does: the lines written stand, in order,
at the front of the bytes that are in the file or in the buffer, and they are all of these
bytes as long as no write error is recorded. -/
theorem scanner.writeStep_stream (st : scanner.OutputWriter × List (List Char))
    (d : List Char)
    (h : (∃ t, st.1.file.data ++ st.1.writer.buf = bytes st.2.flatten ++ t) ∧
      (st.1.writer.err = false → st.1.file.data ++ st.1.writer.buf = bytes st.2.flatten)) :
    (∃ t, (scanner.OutputWriter.writeStep st d).1.file.data ++
        (scanner.OutputWriter.writeStep st d).1.writer.buf =
        bytes (scanner.OutputWriter.writeStep st d).2.flatten ++ t) ∧
    ((scanner.OutputWriter.writeStep st d).1.writer.err = false →
      (scanner.OutputWriter.writeStep st d).1.file.data ++
        (scanner.OutputWriter.writeStep st d).1.writer.buf =
        bytes (scanner.OutputWriter.writeStep st d).2.flatten) := by
  obtain ⟨⟨t, ht⟩, hclean⟩ := h
  obtain ⟨⟨t', k1⟩, k2, k3⟩ :=
    bufio.WriteString_stream st.1.writer st.1.file (bytes (d ++ "\n".toList))
  unfold scanner.OutputWriter.writeStep scanner.OutputWriter.Write
  by_cases hs : st.1.seen.contains d = true
  · rw [if_pos hs]
    dsimp only
    rw [hs]
    exact ⟨⟨t, ht⟩, hclean⟩
  · rw [if_neg hs]
    have hs' : st.1.seen.contains d = false := by simpa using hs
    dsimp only
    by_cases he : (st.1.writer.WriteString st.1.file (bytes (d ++ "\n".toList))).2.2 = true
    · rw [if_pos he]
      dsimp only
      rw [hs']
      refine ⟨⟨t ++ t', ?_⟩, ?_⟩
      · rw [k1, ht, List.append_assoc]
        rfl
      · intro hne
        rw [k3 he] at hne
        exact absurd hne (by decide)
    · rw [if_neg he]
      have he' : (st.1.writer.WriteString st.1.file (bytes (d ++ "\n".toList))).2.2 = false := by
        simpa using he
      obtain ⟨hb, _, hall⟩ := k2 he'
      dsimp only
      rw [hs']
      have hnew : (st.1.writer.WriteString st.1.file (bytes (d ++ "\n".toList))).2.1.data ++
          (st.1.writer.WriteString st.1.file (bytes (d ++ "\n".toList))).1.buf =
          bytes (st.2 ++ [d ++ "\n".toList]).flatten := by
        rw [hall, hclean hb]
        simp [bytes_append]
      exact ⟨⟨[], by rw [List.append_nil]; exact hnew⟩, fun _ => hnew⟩

theorem scanner.writeAll_stream (filename : List Char) (faults : List (Option Nat))
    (calls : List (List Char)) :
    (∃ t, ((scanner.OutputWriter.fresh filename faults).writeAll calls).1.file.data ++
        ((scanner.OutputWriter.fresh filename faults).writeAll calls).1.writer.buf =
        bytes ((scanner.OutputWriter.fresh filename faults).writeAll calls).2.flatten ++ t) ∧
    (((scanner.OutputWriter.fresh filename faults).writeAll calls).1.writer.err = false →
      ((scanner.OutputWriter.fresh filename faults).writeAll calls).1.file.data ++
        ((scanner.OutputWriter.fresh filename faults).writeAll calls).1.writer.buf =
        bytes ((scanner.OutputWriter.fresh filename faults).writeAll calls).2.flatten) := by
  unfold scanner.OutputWriter.writeAll
  exact foldl_invariant
    (fun st : scanner.OutputWriter × List (List Char) =>
      (∃ t, st.1.file.data ++ st.1.writer.buf = bytes st.2.flatten ++ t) ∧
        (st.1.writer.err = false → st.1.file.data ++ st.1.writer.buf = bytes st.2.flatten))
    scanner.OutputWriter.writeStep (fun st d h => scanner.writeStep_stream st d h) calls
    (scanner.OutputWriter.fresh filename faults, [])
    ⟨⟨[], by simp [scanner.OutputWriter.fresh, bytes]⟩,
      fun _ => by simp [scanner.OutputWriter.fresh, bytes]⟩

/-- After a `Close()` whose flush records no error, the file holds all bytes that were in
the file or the buffer before. -/
theorem scanner.Close_clean (w : scanner.OutputWriter) (h : w.Close.writer.err = false) :
    w.writer.err = false ∧ w.Close.file.data = w.file.data ++ w.writer.buf := by
  have herr0 : w.writer.err = false := by
    by_contra hc
    have hc' : w.writer.err = true := by simpa using hc
    have : w.Close.writer.err = true := bufio.Flush_err_of_err w.writer w.file hc'
    rw [this] at h
    exact absurd h (by decide)
  refine ⟨herr0, ?_⟩
  have hbuf : (w.writer.Flush w.file).1.buf = [] := by
    rcases bufio.Flush_err_or_empty w.writer w.file herr0 with h1 | h1
    · have : w.Close.writer.err = true := h1
      rw [this] at h
      exact absurd h (by decide)
    · exact List.length_eq_zero.mp h1
  have hs := bufio.Flush_stream w.writer w.file
  rw [hbuf, List.append_nil] at hs
  exact hs

/-! ## The result sink: claims -/

/-- C1 as stated fails when an underlying write fails: on a file whose first write fails,
the calls `Write("a.b")` and `Write("c.d")` both return no error (the lines are buffered)
and `Count()` is 2, but no line is in the file, before or after `Close()`. -/
theorem sink_count_exceeds_file_lines :
    ((scanner.OutputWriter.fresh "o".toList [some 0]).Write "a.b".toList).2 = false ∧
    ((scanner.OutputWriter.fresh "o".toList [some 0]).writeAll
        ["a.b".toList, "c.d".toList]).1.Count = 2 ∧
    ((scanner.OutputWriter.fresh "o".toList [some 0]).writeAll
        ["a.b".toList, "c.d".toList]).1.file.data = [] ∧
    ((scanner.OutputWriter.fresh "o".toList [some 0]).writeAll
        ["a.b".toList, "c.d".toList]).1.Close.file.data = [] := by
  decide

/-- C1, as the code has it.  Result-sink invariant: after every sequence of `Write` calls on
a freshly constructed sink, whatever the file does on each underlying write, the lines
accepted (those whose `WriteString` returned no error) are pairwise different and the
counter is their number (as a `uint64`; `Count()` is that number as long as it is in the
range of `int`); these lines stand, in order, at the front of the bytes that are in the file
or in the buffer, and they are all of these bytes as long as no write error is recorded;
after a `Close()` whose flush records no error the file holds exactly these lines. -/
theorem sink_lines_distinct_and_counted (filename : List Char) (faults : List (Option Nat))
    (calls : List (List Char)) :
    ((scanner.OutputWriter.fresh filename faults).writeAll calls).2.Nodup ∧
    ((scanner.OutputWriter.fresh filename faults).writeAll calls).1.count =
      ((scanner.OutputWriter.fresh filename faults).writeAll calls).2.length % 2 ^ 64 ∧
    (((scanner.OutputWriter.fresh filename faults).writeAll calls).2.length < 2 ^ 63 →
      ((scanner.OutputWriter.fresh filename faults).writeAll calls).1.Count =
        (((scanner.OutputWriter.fresh filename faults).writeAll calls).2.length : Int)) ∧
    (∃ t, ((scanner.OutputWriter.fresh filename faults).writeAll calls).1.file.data ++
        ((scanner.OutputWriter.fresh filename faults).writeAll calls).1.writer.buf =
        bytes ((scanner.OutputWriter.fresh filename faults).writeAll calls).2.flatten ++ t) ∧
    (((scanner.OutputWriter.fresh filename faults).writeAll calls).1.writer.err = false →
      ((scanner.OutputWriter.fresh filename faults).writeAll calls).1.file.data ++
        ((scanner.OutputWriter.fresh filename faults).writeAll calls).1.writer.buf =
        bytes ((scanner.OutputWriter.fresh filename faults).writeAll calls).2.flatten) ∧
    (((scanner.OutputWriter.fresh filename faults).writeAll calls).1.Close.writer.err = false →
      ((scanner.OutputWriter.fresh filename faults).writeAll calls).1.Close.file.data =
        bytes ((scanner.OutputWriter.fresh filename faults).writeAll calls).2.flatten) := by
  obtain ⟨h1, _, h3⟩ := scanner.writeAll_invariant filename faults calls
  obtain ⟨h4, h5⟩ := scanner.writeAll_stream filename faults calls
  refine ⟨h1, h3, fun hlt => scanner.Count_of_count _ _ hlt h3, h4, h5, ?_⟩
  intro hclose
  obtain ⟨herr, hdata⟩ := scanner.Close_clean _ hclose
  rw [hdata, h5 herr]

/-- Instance of the amended C1: three calls with two different domains on a file whose
first write succeeds: two lines, `Count() = 2`, and after `Close()` the file holds the two
lines. -/
theorem sink_lines_distinct_and_counted_witness :
    ((scanner.OutputWriter.fresh "o".toList [none, some 0]).writeAll
        ["a.b".toList, "c.d".toList, "a.b".toList]).1.Count = 2 ∧
    ((scanner.OutputWriter.fresh "o".toList [none, some 0]).writeAll
        ["a.b".toList, "c.d".toList, "a.b".toList]).1.Close.file.data =
      bytes "a.b\nc.d\n".toList :=
  ⟨(sink_lines_distinct_and_counted "o".toList [none, some 0]
      ["a.b".toList, "c.d".toList, "a.b".toList]).2.2.1 (by decide),
    (sink_lines_distinct_and_counted "o".toList [none, some 0]
      ["a.b".toList, "c.d".toList, "a.b".toList]).2.2.2.2.2 (by decide)⟩

theorem scanner.writeAll_healthy_eq (filename : List Char) (faults : List (Option Nat))
    (hf : ∀ x ∈ faults, x = none) (ds : List (List Char)) :
    ((scanner.OutputWriter.fresh filename faults).writeAll ds).2 =
      (firstOccurrences ds).map (fun y => y ++ "\n".toList) := by
  unfold scanner.OutputWriter.writeAll
  rw [scanner.writeAll_healthy_lines ds _ [] rfl ⟨rfl, hf⟩]
  simp [scanner.OutputWriter.fresh]

theorem firstOccurrences_replicate (n : Nat) (d : List Char) :
    firstOccurrences (List.replicate (n + 1) d) = [d] := by
  rw [List.replicate_succ, firstOccurrences]
  congr 1
  rw [List.filter_eq_nil_iff]
  intro a ha
  have := (mem_firstOccurrences _ a).mp ha
  rw [List.eq_of_mem_replicate this]
  simp

/-- C2. On a fresh sink whose writes succeed, for every sequence of domains in the order in
which the mutex admits the calls, the lines written are the distinct domains of the
sequence in the order of their first occurrence, the counter is their number, and after
`Close()` the file holds these lines; any number `n ≥ 1` of calls with one domain writes
one line and brings `Count()` from 0 to 1; the calls `dns.google`, `a.b.c`, `dns.google`
in any order write the two lines `dns.google` and `a.b.c` and give `Count() = 2`. -/
theorem sink_writes_first_occurrences (filename : List Char) (faults : List (Option Nat))
    (hf : ∀ x ∈ faults, x = none) :
    (∀ ds : List (List Char), ∃ res : List (List Char),
      IsFirstOccurrenceList res ds ∧
      ((scanner.OutputWriter.fresh filename faults).writeAll ds).2 =
        res.map (fun d => d ++ "\n".toList) ∧
      ((scanner.OutputWriter.fresh filename faults).writeAll ds).1.count =
        res.length % 2 ^ 64 ∧
      (res.length < 2 ^ 63 →
        ((scanner.OutputWriter.fresh filename faults).writeAll ds).1.Count = (res.length : Int)) ∧
      ((scanner.OutputWriter.fresh filename faults).writeAll ds).1.Close.file.data =
        bytes (res.map (fun d => d ++ "\n".toList)).flatten) ∧
    (∀ (n : Nat) (d : List Char), 1 ≤ n →
      (scanner.OutputWriter.fresh filename faults).Count = 0 ∧
      ((scanner.OutputWriter.fresh filename faults).writeAll (List.replicate n d)).2 =
        [d ++ "\n".toList] ∧
      ((scanner.OutputWriter.fresh filename faults).writeAll (List.replicate n d)).1.Count = 1) ∧
    (∀ ds : List (List Char),
      ds.Perm ["dns.google".toList, "a.b.c".toList, "dns.google".toList] →
      (((scanner.OutputWriter.fresh filename faults).writeAll ds).2).Perm
        ["dns.google\n".toList, "a.b.c\n".toList] ∧
      ((scanner.OutputWriter.fresh filename faults).writeAll ds).1.Count = 2) := by
  have hcount : ∀ ds : List (List Char),
      ((scanner.OutputWriter.fresh filename faults).writeAll ds).1.count =
        (firstOccurrences ds).length % 2 ^ 64 := by
    intro ds
    have h := (scanner.writeAll_invariant filename faults ds).2.2
    rw [scanner.writeAll_healthy_eq filename faults hf ds, List.length_map] at h
    exact h
  refine ⟨?_, ?_, ?_⟩
  · intro ds
    refine ⟨firstOccurrences ds, isFirstOccurrenceList_firstOccurrences ds,
      scanner.writeAll_healthy_eq filename faults hf ds, hcount ds,
      fun hlt => scanner.Count_of_count _ _ hlt (hcount ds), ?_⟩
    rw [scanner.writeAll_healthy_data filename faults hf ds,
      scanner.writeAll_healthy_eq filename faults hf ds]
  · intro n d hn
    obtain ⟨m, rfl⟩ : ∃ m, n = m + 1 := ⟨n - 1, by omega⟩
    refine ⟨rfl, ?_, ?_⟩
    · rw [scanner.writeAll_healthy_eq filename faults hf, firstOccurrences_replicate]
      rfl
    · have h := hcount (List.replicate (m + 1) d)
      rw [firstOccurrences_replicate] at h
      exact scanner.Count_of_count _ 1 (by decide) h
  · intro ds hperm
    have hnd := nodup_firstOccurrences ds
    have hp : (firstOccurrences ds).Perm ["dns.google".toList, "a.b.c".toList] := by
      rw [List.perm_ext_iff_of_nodup hnd (by decide)]
      intro a
      rw [mem_firstOccurrences, hperm.mem_iff]
      simp only [List.mem_cons, List.mem_singleton, List.not_mem_nil, or_false]
      tauto
    constructor
    · rw [scanner.writeAll_healthy_eq filename faults hf ds]
      exact hp.map _
    · have h := hcount ds
      rw [hp.length_eq] at h
      exact scanner.Count_of_count _ 2 (by decide) h

/-- Instance of C2 on a file without write errors. -/
theorem sink_writes_first_occurrences_witness :
    ((scanner.OutputWriter.fresh "o".toList []).writeAll
        ["a.b.c".toList, "dns.google".toList, "dns.google".toList]).1.Count = 2 ∧
    ((scanner.OutputWriter.fresh "o".toList []).writeAll
        (List.replicate 3 "dns.google".toList)).2 = ["dns.google\n".toList] :=
  ⟨((sink_writes_first_occurrences "o".toList [] (by decide)).2.2
      ["a.b.c".toList, "dns.google".toList, "dns.google".toList] (by decide)).2,
    ((sink_writes_first_occurrences "o".toList [] (by decide)).2.1 3 "dns.google".toList
      (by decide)).2.1⟩

/-- The file of a sink whose handle is closed is never changed by a `Write`. -/
theorem scanner.sinkWrite_closed (w : scanner.OutputWriter) (d : List Char)
    (h : w.file.closed = true) : (w.Write d).1.file = w.file := by
  unfold scanner.OutputWriter.Write
  split
  · rfl
  · dsimp only
    split <;> exact bufio.WriteString_closed _ _ _ h

/-- C3 as stated fails: on a fresh sink, `Close()` followed by `Write("a.b")` returns no
error, records `a.b` and raises `Count()` from 0 to 1 (the file itself stays empty). -/
theorem write_after_close_is_counted :
    (scanner.OutputWriter.fresh "o".toList []).Close.Count = 0 ∧
    ((scanner.OutputWriter.fresh "o".toList []).Close.Write "a.b".toList).2 = false ∧
    ((scanner.OutputWriter.fresh "o".toList []).Close.Write "a.b".toList).1.Count = 1 ∧
    "a.b".toList ∈ ((scanner.OutputWriter.fresh "o".toList []).Close.Write "a.b".toList).1.seen ∧
    ((scanner.OutputWriter.fresh "o".toList []).Close.Write "a.b".toList).1.file.data = [] := by
  decide

/-- C3, as the code has it.  `Close()` closes the file handle and leaves `seen` and the
counter as they are; a `Write` on a sink whose handle is closed never changes the file, so
the persisted output stays as it was; but `Write` does not test for a closed sink: after
`Close()`, a domain not seen before, whose line fits the buffer (4096 bytes, empty after a
flush without error), is accepted: `Write` returns no error, records the domain and adds
one to the counter. -/
theorem write_after_close (w : scanner.OutputWriter) (d : List Char) :
    w.Close.file.closed = true ∧ w.Close.seen = w.seen ∧ w.Close.count = w.count ∧
    (∀ v : scanner.OutputWriter, v.file.closed = true → (v.Write d).1.file = v.file) ∧
    (d ∉ w.seen → w.Close.writer.err = false →
      (bytes (d ++ "\n".toList)).length ≤ 4096 →
      (w.Close.Write d).2 = false ∧ (w.Close.Write d).1.seen = d :: w.seen ∧
        (w.Close.Write d).1.count = (w.count + 1) % 2 ^ 64) := by
  refine ⟨rfl, rfl, rfl, fun v hv => scanner.sinkWrite_closed v d hv, ?_⟩
  intro hs herr hfit
  have hbuf : w.Close.writer.buf.length = 0 := by
    have herr0 : w.writer.err = false := by
      by_contra hc
      have hc' : w.writer.err = true := by simpa using hc
      have : w.Close.writer.err = true := by
        unfold scanner.OutputWriter.Close bufio.Writer.Flush
        dsimp only
        rw [if_pos hc']
        exact hc'
      rw [this] at herr
      exact absurd herr (by decide)
    rcases bufio.Flush_err_or_empty w.writer w.file herr0 with h | h
    · have : w.Close.writer.err = true := h
      rw [this] at herr
      exact absurd herr (by decide)
    · exact h
  have havail : (bytes (d ++ "\n".toList)).length ≤ w.Close.writer.Available := by
    unfold bufio.Writer.Available bufio.defaultBufSize
    omega
  have hw := bufio.WriteString_fits w.Close.writer w.Close.file _ herr havail
  have hns : ¬ w.Close.seen.contains d = true := by
    have : w.Close.seen = w.seen := rfl
    rw [this]
    simpa using hs
  unfold scanner.OutputWriter.Write
  rw [if_neg hns]
  dsimp only
  rw [hw]
  exact ⟨rfl, rfl, rfl⟩

/-- Instance of the amended C3 on a fresh sink. -/
theorem write_after_close_witness :
    ((scanner.OutputWriter.fresh "o".toList []).Close.Write "a.b".toList).1.file =
        (scanner.OutputWriter.fresh "o".toList []).Close.file ∧
    ((scanner.OutputWriter.fresh "o".toList []).Close.Write "a.b".toList).1.seen =
        ["a.b".toList] :=
  ⟨(write_after_close (scanner.OutputWriter.fresh "o".toList []) "a.b".toList).2.2.2.1
      (scanner.OutputWriter.fresh "o".toList []).Close (by decide),
    ((write_after_close (scanner.OutputWriter.fresh "o".toList []) "a.b".toList).2.2.2.2
      (by decide) (by decide) (by decide)).2.1⟩

/-! ## The sources: status codes and pagination -/

/-- The five single-request sources fail on every status other than 200: they return an
error and no domains. -/
theorem source.single_sources_reject_status (L : Stdlib) (E : source.Env) (n : source.Name)
    (ip : List Char) (r : source.Result) (hn : n ≠ source.Name.thcOrg)
    (hstatus : ∀ url resp, E.Do 0 url = some resp → resp.StatusCode ≠ 200)
    (h : source.Query L E n ip = some r) : r.domains = [] ∧ r.err ≠ none := by
  have single : ∀ (url : List Char)
      (extract : source.Response → Except source.Err (List (List Char))),
      source.singleQuery L E url extract = some r → r.domains = [] ∧ r.err ≠ none := by
    intro url extract hq
    rcases source.singleQuery_cases L E url extract r hq with h0 | ⟨resp, _, hdo, hst, _⟩
    · exact h0
    · exact absurd hst (hstatus url resp hdo)
  cases n with
  | rapiddns =>
    unfold source.Query source.RapidDNS.Query at h
    exact single _ _ h
  | webscan =>
    unfold source.Query source.WebScan.Query at h
    exact single _ _ h
  | tntcode =>
    unfold source.Query source.TNTcode.Query at h
    exact single _ _ h
  | networksdb =>
    unfold source.Query source.NetworksDB.Query at h
    exact single _ _ h
  | chaxunle =>
    unfold source.Query source.Chaxunle.Query at h
    exact single _ _ h
  | thcOrg => exact absurd rfl hn

/-- C4 fails for the source thc-org: for a response with status 404 and the body
`example.com`, `THCOrg.Query` returns the domain `example.com` and no error. -/
theorem THCOrg_ignores_status :
    source.THCOrg.Query Stdlib.ascii
        ⟨fun _ _ => some ⟨404, "example.com\n".toList, false⟩, fun _ => false⟩
        "1.1.1.1".toList
      = some ⟨["example.com".toList], none, ["https://ip.thc.org/1.1.1.1".toList]⟩ := by
  decide

/-- C6 fails for a path outside `results`: in a working directory without `out`,
`NewOutputWriter("out/x.txt")` creates the directory `results`, not `out`, and returns
the error of `os.Create`; no file exists afterwards. -/
theorem NewOutputWriter_misses_parent :
    scanner.NewOutputWriter ⟨[[]], []⟩ "out/x.txt".toList []
      = (⟨[[], ["results".toList]], []⟩, none) := by
  decide

/-- C7. Bounded pagination of thc-org: whatever the server answers, `THCOrg.Query` returns,
having sent at most 20 requests; the first goes to the base URL, every further one to the
non-empty link that `parseTHCResponse` finds in the answer to the one before, and after an
answer without link no further request is sent.  The requests are really sent: the first
unless the context is done or the URL is rejected, and after an answered page with a link
the next, unless 20 pages are reached, the context is done or the link is rejected as a
URL. -/
theorem THCOrg_pagination_bounded (L : Stdlib) (E : source.Env) (ip : List Char) :
    ∃ r, source.THCOrg.Query L E ip = some r ∧ r.requests.length ≤ 20 ∧
      (∀ u, r.requests[0]? = some u → u = source.THCOrg.baseURL ip) ∧
      (∀ k u v, r.requests[k]? = some u → r.requests[k + 1]? = some v →
        v ≠ [] ∧ ∃ resp, E.Do k u = some resp ∧ resp.readErr = false ∧
          (source.parseTHCResponse L resp.Body).2 = v) ∧
      (∀ k u resp, r.requests[k]? = some u → E.Do k u = some resp → resp.readErr = false →
        (source.parseTHCResponse L resp.Body).2 = [] → r.requests.length = k + 1) ∧
      (E.done 0 = false → L.validURL (source.THCOrg.baseURL ip) = true →
        r.requests[0]? = some (source.THCOrg.baseURL ip)) ∧
      (∀ k u resp, r.requests[k]? = some u → E.Do k u = some resp → resp.readErr = false →
        (source.parseTHCResponse L resp.Body).2 ≠ [] → k + 1 < 20 →
        E.done (k + 1) = false → L.validURL (source.parseTHCResponse L resp.Body).2 = true →
        r.requests[k + 1]? = some (source.parseTHCResponse L resp.Body).2) := by
  obtain ⟨r, tail, hr, hreq, hlen, hchain, hall, _, _⟩ := source.THCOrg.loop_spec L E 21 []
    (source.THCOrg.baseURL ip) 0 [] (by decide) (by decide) (by simp)
  rw [List.nil_append] at hreq
  rw [← hreq] at hlen hchain hall
  have hstep : ∀ k u v, r.requests[k]? = some u → r.requests[k + 1]? = some v →
      v ≠ [] ∧ ∃ resp, E.Do k u = some resp ∧ resp.readErr = false ∧
        (source.parseTHCResponse L resp.Body).2 = v := by
    intro k u v hu hv
    have := source.THCOrg.followsLinks_step L E r.requests 0 _ k u v hchain hu hv
    rwa [Nat.zero_add] at this
  have hbase : source.THCOrg.baseURL ip ≠ [] := by
    unfold source.THCOrg.baseURL
    intro h
    have := congrArg List.length h
    simp at this
  refine ⟨r, hr, by simpa using hlen, ?_, hstep, ?_, ?_, ?_⟩
  · intro u hu
    exact source.THCOrg.followsLinks_head L E 0 _ u r.requests hchain hu
  · intro k u resp hu hdo hread hnone
    have hk : k < r.requests.length := by
      by_contra hc
      rw [List.getElem?_eq_none (by omega)] at hu
      exact absurd hu (by simp)
    by_contra hne
    have hk1 : k + 1 < r.requests.length := by omega
    obtain ⟨hv, resp', hdo', _, hlink⟩ :=
      hstep k u (r.requests[k + 1]) hu (List.getElem?_eq_getElem hk1)
    rw [hdo] at hdo'
    simp only [Option.some.injEq] at hdo'
    subst hdo'
    exact hv (hlink ▸ hnone)
  · intro hdone hurl
    exact source.THCOrg.sendsAll_head L E _ r.requests hchain hall hbase hdone hurl
  · intro k u resp hu hdo hread hlink hcap hdone hurl
    have := source.THCOrg.sendsAll_step L E r.requests 0 _ k u resp hchain hall hu
      (by rw [Nat.zero_add]; exact hdo) hread hlink (by omega)
      (by rw [Nat.zero_add]; exact hdone) hurl
    exact this

/-- Instance of C7 with a server whose every page names a next page: exactly 20 requests
are sent. -/
theorem THCOrg_pagination_bounded_witness :
    (∃ r, source.THCOrg.Query Stdlib.ascii
        ⟨fun _ _ => some ⟨200, "a.b\nNext Page: https://ip.thc.org/n\n".toList, false⟩,
          fun _ => false⟩ "1.1.1.1".toList = some r ∧ r.requests.length ≤ 20) ∧
    (source.THCOrg.Query Stdlib.ascii
        ⟨fun _ _ => some ⟨200, "a.b\nNext Page: https://ip.thc.org/n\n".toList, false⟩,
          fun _ => false⟩ "1.1.1.1".toList).map (fun r => r.requests.length) = some 20 :=
  ⟨(THCOrg_pagination_bounded Stdlib.ascii
      ⟨fun _ _ => some ⟨200, "a.b\nNext Page: https://ip.thc.org/n\n".toList, false⟩,
        fun _ => false⟩ "1.1.1.1".toList).imp (fun _ h => ⟨h.1, h.2.1⟩),
    by decide⟩

theorem source.stripANSI_of_no_esc (s : List Char) (h : source.esc ∉ s) :
    source.stripANSI s = s := by
  unfold source.stripANSI
  induction s with
  | nil => rfl
  | cons c t ih =>
    have hc : c ≠ source.esc := fun e => h (e ▸ List.mem_cons_self c t)
    have ht : source.esc ∉ t := fun e => h (List.mem_cons_of_mem c e)
    rw [source.stripANSI.go, if_neg hc, ih ht]

/-- The scanner limit in `parseTHCResponse`: of a page with a link, then a line of 65536
bytes, then another link, only the first link is read. -/
theorem source.parseTHCResponse_stops_at_long_line :
    source.parseTHCResponse Stdlib.ascii
        ("Next Page: https://ip.thc.org/p1".toList ++ '\n' ::
          (List.replicate 65536 'x' ++ '\n' :: "Next Page: https://ip.thc.org/p2\n".toList))
      = ([], "https://ip.thc.org/p1".toList) := by
  have hx : ∀ c : Char, c ≠ 'x' → c ∉ List.replicate 65536 'x' :=
    fun c hc h => hc (List.eq_of_mem_replicate h)
  have hesc : source.esc ∉ "Next Page: https://ip.thc.org/p1".toList ++ '\n' ::
      (List.replicate 65536 'x' ++ '\n' :: "Next Page: https://ip.thc.org/p2\n".toList) := by
    intro h
    rcases List.mem_append.mp h with h | h
    · exact absurd h (by decide)
    · rcases List.mem_cons.mp h with h | h
      · exact absurd h (by decide)
      · rcases List.mem_append.mp h with h | h
        · exact hx _ (by decide) h
        · exact absurd h (by decide)
  have hs : strings.Split "Next Page: https://ip.thc.org/p2\n".toList '\n'
      = ["Next Page: https://ip.thc.org/p2".toList, []] := by decide
  have hraw : bufio.rawLines ("Next Page: https://ip.thc.org/p1".toList ++ '\n' ::
      (List.replicate 65536 'x' ++ '\n' :: "Next Page: https://ip.thc.org/p2\n".toList))
      = ["Next Page: https://ip.thc.org/p1".toList, List.replicate 65536 'x',
          "Next Page: https://ip.thc.org/p2".toList] := by
    unfold bufio.rawLines
    rw [strings.Split_append_sep _ _ _ (by decide),
      strings.Split_append_sep _ _ _ (hx _ (by decide)), hs]
    rfl
  have hfit1 : bufio.fitsBuffer "Next Page: https://ip.thc.org/p1".toList = true := by decide
  have hfit2 : bufio.fitsBuffer (List.replicate 65536 'x') = false := by
    unfold bufio.fitsBuffer bufio.MaxScanTokenSize
    rw [bytes_replicate_length]
    decide
  have hscan : bufio.scanLines ("Next Page: https://ip.thc.org/p1".toList ++ '\n' ::
      (List.replicate 65536 'x' ++ '\n' :: "Next Page: https://ip.thc.org/p2\n".toList))
      = ["Next Page: https://ip.thc.org/p1".toList] := by
    unfold bufio.scanLines
    rw [hraw, List.takeWhile_cons, hfit1, List.takeWhile_cons, hfit2]
    decide
  unfold source.parseTHCResponse
  dsimp only
  rw [source.stripANSI_of_no_esc _ hesc, hscan]
  decide

end IPFinder
